import Mathlib

/-!
Verification development for the Helix inference engine.

This file gives a shallow embedding, in Lean 4, of the parts of the Helix
source that the specification's claims are about:

* the speculative-decoding acceptance loop of `speculative_decode_step`
  and its helper `compute_acceptance_probability` (src/speculative.py);
* the token-accumulation loops of `SpeculativeDecoder.generate`,
  `AdaptiveSpeculativeDecoder.generate` (src/speculative.py) and
  `HelixEngine.generate_stream` (src/inference.py);
* the adaptive depth controller of `AdaptiveSpeculativeDecoder`
  (src/speculative.py);
* the paged KV cache: `Block`, `BlockAllocator`, `SequenceBlockTable`
  and `PagedKVCache` (src/kv_cache.py).

Probabilities and uniform draws are modelled as exact rationals; tensors
of model probabilities are functions from token ids to rationals; the
stochastic choices of `torch.rand` and `torch.multinomial` are supplied
as oracle parameters (a stream of uniforms, and a sampler that receives
exactly the weight vector the code hands to `torch.multinomial`).
-/

namespace Helix

/-! ## Speculative decoding acceptance loop (src/speculative.py)

`speculative_decode_step` PHASE 3/4: the target's per-row probability
vectors (`F.softmax(target_logits[0, idx, :] / temperature)`) are modelled
as the function `target : row index → token → ℚ`; the remembered draft
distributions travel with their tokens in the `drafts` list. -/

/-- `compute_acceptance_probability` (src/speculative.py lines 62-80):
returns `0.0` when `q(x) = 0`, else `min(1, p(x)/q(x))`. -/
def compute_acceptance_probability (target_probs draft_probs : ℕ → ℚ)
    (sampled_token : ℕ) : ℚ :=
  let p := target_probs sampled_token
  let q := draft_probs sampled_token
  if q = 0 then 0 else min 1 (p / q)

/-- The logits row index read for draft position `i`:
`logit_idx = (original_len - 1 + i) - logits_start_pos` with
`logits_start_pos = full_seq_len - logits_seq_len = (P + K) - Tq`
(src/speculative.py lines 190-201). `P` is the prompt length,
`K` the speculation depth, `Tq` the number of logits rows returned. -/
def logitIdx (P K Tq i : ℕ) : ℤ :=
  ((P : ℤ) - 1 + i) - ((P + K : ℤ) - Tq)

/-- The weight vector the rejected branch hands to `torch.multinomial`
(src/speculative.py lines 222-223):
`clamp(target_probs - draft_probs, min 0) / (sum + 1e-10)`,
over a vocabulary of size `V`. -/
def residualWeights (V : ℕ) (p q : ℕ → ℚ) : ℕ → ℚ :=
  fun v => max 0 (p v - q v) /
    (((List.range V).map fun w => max 0 (p w - q w)).sum + 1 / 10 ^ 10)

/-- The acceptance loop of `speculative_decode_step` (PHASE 3, lines
198-227). State: remaining `(draft_token, draft_probs)` entries, the
enumeration index `i`, the `accepted_tokens` list and `num_accepted`.
Out-of-range rows are accepted unconditionally and the loop continues;
an in-range row accepts iff `u < compute_acceptance_probability`;
a rejection appends one token drawn by the `sampler` oracle from the
residual weights and stops. -/
def acceptLoop (V P K Tq : ℕ) (target : ℕ → ℕ → ℚ) (us : ℕ → ℚ)
    (sampler : (ℕ → ℚ) → ℕ) :
    List (ℕ × (ℕ → ℚ)) → ℕ → List ℕ → ℕ → List ℕ × ℕ
  | [], _, acc, na => (acc, na)
  | (x, q) :: rest, i, acc, na =>
    if logitIdx P K Tq i < 0 ∨ (Tq : ℤ) ≤ logitIdx P K Tq i then
      acceptLoop V P K Tq target us sampler rest (i + 1) (acc ++ [x]) (na + 1)
    else
      if us i < compute_acceptance_probability
          (target (logitIdx P K Tq i).toNat) q x then
        acceptLoop V P K Tq target us sampler rest (i + 1) (acc ++ [x]) (na + 1)
      else
        (acc ++ [sampler (residualWeights V (target (logitIdx P K Tq i).toNat) q)], na)

/-- PHASE 3 followed by PHASE 4 (lines 232-235): if all `K` draft tokens
were accepted, one bonus token (sampled upstream from the last logits
row, supplied here as the oracle value `bonus`) is appended. -/
def specStepTokens (V P K Tq : ℕ) (target : ℕ → ℕ → ℚ) (us : ℕ → ℚ)
    (sampler : (ℕ → ℚ) → ℕ) (bonus : ℕ)
    (drafts : List (ℕ × (ℕ → ℚ))) : List ℕ × ℕ :=
  let r := acceptLoop V P K Tq target us sampler drafts 0 [] 0
  if r.2 = K then (r.1 ++ [bonus], r.2) else (r.1, r.2)

/-- The code's acceptance condition for draft entry `(x, q)` at loop
index `i`: either the logits row is out of range (defensive fallback)
or the uniform draw is below the acceptance probability. -/
def acceptedAt (P K Tq : ℕ) (target : ℕ → ℕ → ℚ) (us : ℕ → ℚ)
    (x : ℕ) (q : ℕ → ℚ) (i : ℕ) : Prop :=
  (logitIdx P K Tq i < 0 ∨ (Tq : ℤ) ≤ logitIdx P K Tq i) ∨
    us i < compute_acceptance_probability
      (target (logitIdx P K Tq i).toNat) q x

/-- Positivity of the normalizing constant used by the rejected branch:
the sum of the clamped residual weights is nonnegative, so adding the
`1e-10` guard makes the divisor strictly positive. -/
theorem residual_divisor_pos (V : ℕ) (p q : ℕ → ℚ) :
    0 < ((List.range V).map fun w => max 0 (p w - q w)).sum + 1 / 10 ^ 10 := by
  have hs : 0 ≤ ((List.range V).map fun w => max 0 (p w - q w)).sum := by
    apply List.sum_nonneg
    intro a ha
    simp only [List.mem_map] at ha
    obtain ⟨w, _, rfl⟩ := ha
    exact le_max_left 0 _
  have : (0 : ℚ) < 1 / 10 ^ 10 := by norm_num
  linarith

/-- The residual weight vector is a positive scalar multiple of the
residual `r(v) = max(0, p(v) - q(v))`. -/
theorem residualWeights_propto (V : ℕ) (p q : ℕ → ℚ) :
    ∃ c : ℚ, 0 < c ∧ ∀ v, residualWeights V p q v = c * max 0 (p v - q v) := by
  refine ⟨(((List.range V).map fun w => max 0 (p w - q w)).sum + 1 / 10 ^ 10)⁻¹,
    inv_pos.mpr (residual_divisor_pos V p q), fun v => ?_⟩
  rw [residualWeights, div_eq_mul_inv, mul_comm]

/-- C1: in the acceptance loop of one speculative step, with `p` the
target's distribution for the verified row and `q` the draft's
remembered distribution, the draft token `x` is accepted (appended,
counted, loop continues) iff the uniform `u` satisfies
`u < min(1, p(x)/q(x))`; when `q(x) = 0` the token is rejected
(the rejected branch fires). -/
theorem accept_iff_u_lt_min_ratio (V P K Tq : ℕ) (target : ℕ → ℕ → ℚ)
    (us : ℕ → ℚ) (sampler : (ℕ → ℚ) → ℕ) (x : ℕ) (q : ℕ → ℚ)
    (rest : List (ℕ × (ℕ → ℚ))) (i : ℕ) (acc : List ℕ) (na : ℕ)
    (hin : ¬ (logitIdx P K Tq i < 0 ∨ (Tq : ℤ) ≤ logitIdx P K Tq i)) :
    (q x ≠ 0 → us i < min 1 (target (logitIdx P K Tq i).toNat x / q x) →
      acceptLoop V P K Tq target us sampler ((x, q) :: rest) i acc na
        = acceptLoop V P K Tq target us sampler rest (i + 1) (acc ++ [x]) (na + 1)) ∧
    (q x ≠ 0 → ¬ us i < min 1 (target (logitIdx P K Tq i).toNat x / q x) →
      acceptLoop V P K Tq target us sampler ((x, q) :: rest) i acc na
        = (acc ++ [sampler (residualWeights V (target (logitIdx P K Tq i).toNat) q)], na)) ∧
    (q x = 0 → 0 ≤ us i →
      acceptLoop V P K Tq target us sampler ((x, q) :: rest) i acc na
        = (acc ++ [sampler (residualWeights V (target (logitIdx P K Tq i).toNat) q)], na)) := by
  refine ⟨fun hq hlt => ?_, fun hq hge => ?_, fun hq hu => ?_⟩
  · have hdec : us i < compute_acceptance_probability
        (target (logitIdx P K Tq i).toNat) q x := by
      rw [compute_acceptance_probability]; simpa [hq] using hlt
    rw [acceptLoop]; simp [hin, hdec]
  · have hdec : ¬ us i < compute_acceptance_probability
        (target (logitIdx P K Tq i).toNat) q x := by
      rw [compute_acceptance_probability]
      simpa [hq] using hge
    rw [acceptLoop]; simp [hin, hdec]
  · have hdec : ¬ us i < compute_acceptance_probability
        (target (logitIdx P K Tq i).toNat) q x := by
      rw [compute_acceptance_probability]
      simp only [hq, if_pos rfl, not_lt]
      exact hu
    rw [acceptLoop]; simp [hin, hdec]

/-- If every entry of `pre` is accepted (its loop index is out of range,
or its uniform is below its acceptance probability), the loop walks
through `pre`, appending each draft token and counting it. -/
theorem acceptLoop_accepted_run (V P K Tq : ℕ) (target : ℕ → ℕ → ℚ)
    (us : ℕ → ℚ) (sampler : (ℕ → ℚ) → ℕ) (pre : List (ℕ × (ℕ → ℚ))) :
    ∀ (rest : List (ℕ × (ℕ → ℚ))) (i : ℕ) (acc : List ℕ) (na : ℕ),
    (∀ j (h : j < pre.length),
        acceptedAt P K Tq target us (pre.get ⟨j, h⟩).1 (pre.get ⟨j, h⟩).2 (i + j)) →
    acceptLoop V P K Tq target us sampler (pre ++ rest) i acc na
      = acceptLoop V P K Tq target us sampler rest (i + pre.length)
          (acc ++ pre.map Prod.fst) (na + pre.length) := by
  induction pre with
  | nil => intro rest i acc na _; simp
  | cons e pre ih =>
    obtain ⟨x, q⟩ := e
    intro rest i acc na hacc
    have h0 : acceptedAt P K Tq target us x q i := by
      have := hacc 0 (by simp)
      simpa using this
    have hrest : ∀ j (h : j < pre.length),
        acceptedAt P K Tq target us (pre.get ⟨j, h⟩).1 (pre.get ⟨j, h⟩).2
          (i + 1 + j) := by
      intro j h
      have := hacc (j + 1) (by simpa using Nat.succ_lt_succ h)
      simpa [Nat.add_comm, Nat.add_assoc, Nat.add_left_comm] using this
    have hstep : acceptLoop V P K Tq target us sampler ((x, q) :: (pre ++ rest)) i acc na
        = acceptLoop V P K Tq target us sampler (pre ++ rest) (i + 1)
            (acc ++ [x]) (na + 1) := by
      rcases h0 with hout | hu
      · rw [acceptLoop]; simp [hout]
      · by_cases hout2 : logitIdx P K Tq i < 0 ∨ (Tq : ℤ) ≤ logitIdx P K Tq i
        · rw [acceptLoop]; simp [hout2]
        · rw [acceptLoop]; simp [hout2, hu]
    rw [List.cons_append, hstep, ih rest (i + 1) (acc ++ [x]) (na + 1) hrest]
    simp [Nat.add_comm, Nat.add_assoc, Nat.add_left_comm, List.append_assoc]

/-- C2: when the first rejection occurs at index `k = pre.length`
(every earlier entry accepted, entry `k` in range and rejected), the
step returns the accepted tokens followed by exactly one replacement
token drawn by the `torch.multinomial` oracle from the residual
weights; no bonus token is added, the result is independent of the
draft entries after index `k`, and the weights handed to the sampler
are a positive scalar multiple of `max(0, p - q)` (so the replacement
is sampled from the renormalized residual distribution). -/
theorem rejection_samples_residual_and_stops (V P K Tq : ℕ)
    (target : ℕ → ℕ → ℚ) (us : ℕ → ℚ) (sampler : (ℕ → ℚ) → ℕ) (bonus : ℕ)
    (pre rest : List (ℕ × (ℕ → ℚ))) (x : ℕ) (q : ℕ → ℚ)
    (hacc : ∀ j (h : j < pre.length),
        acceptedAt P K Tq target us (pre.get ⟨j, h⟩).1 (pre.get ⟨j, h⟩).2 j)
    (hin : ¬ (logitIdx P K Tq pre.length < 0 ∨
        (Tq : ℤ) ≤ logitIdx P K Tq pre.length))
    (hrej : ¬ us pre.length < compute_acceptance_probability
        (target (logitIdx P K Tq pre.length).toNat) q x)
    (hK : (pre ++ (x, q) :: rest).length = K) :
    (∀ rest2 : List (ℕ × (ℕ → ℚ)),
      specStepTokens V P K Tq target us sampler bonus (pre ++ (x, q) :: rest2)
        = (pre.map Prod.fst
            ++ [sampler (residualWeights V
                  (target (logitIdx P K Tq pre.length).toNat) q)],
           pre.length)) ∧
    (pre.map Prod.fst
        ++ [sampler (residualWeights V
              (target (logitIdx P K Tq pre.length).toNat) q)]).length
      = pre.length + 1 ∧
    (∃ c : ℚ, 0 < c ∧ ∀ v,
      residualWeights V (target (logitIdx P K Tq pre.length).toNat) q v
        = c * max 0 (target (logitIdx P K Tq pre.length).toNat v - q v)) := by
  have hlt : pre.length < K := by
    rw [← hK]; simp [Nat.lt_succ_iff]
  refine ⟨fun rest2 => ?_, by simp, residualWeights_propto V _ q⟩
  have hrun := acceptLoop_accepted_run V P K Tq target us sampler pre
    ((x, q) :: rest2) 0 [] 0 (by intro j h; simpa using hacc j h)
  have hrej2 : acceptLoop V P K Tq target us sampler ((x, q) :: rest2)
      pre.length (pre.map Prod.fst) pre.length
      = (pre.map Prod.fst
          ++ [sampler (residualWeights V
                (target (logitIdx P K Tq pre.length).toNat) q)],
         pre.length) := by
    rw [acceptLoop]; simp [hin, hrej]
  rw [specStepTokens, hrun]
  simp only [Nat.zero_add, List.nil_append] at *
  rw [hrej2]
  simp [Nat.ne_of_lt hlt]

/-- C9: during verification, when the logits row index
`(P - 1 + i) - ((P + K) - Tq)` for draft position `i` falls outside
`[0, Tq)`, the acceptance loop accepts the draft token unconditionally
(appending and counting it) and continues with the next index. -/
theorem logits_fallback_accepts (V P K Tq : ℕ) (target : ℕ → ℕ → ℚ)
    (us : ℕ → ℚ) (sampler : (ℕ → ℚ) → ℕ) (x : ℕ) (q : ℕ → ℚ)
    (rest : List (ℕ × (ℕ → ℚ))) (i : ℕ) (acc : List ℕ) (na : ℕ)
    (hout : logitIdx P K Tq i < 0 ∨ (Tq : ℤ) ≤ logitIdx P K Tq i) :
    acceptLoop V P K Tq target us sampler ((x, q) :: rest) i acc na
      = acceptLoop V P K Tq target us sampler rest (i + 1) (acc ++ [x]) (na + 1) := by
  rw [acceptLoop]; simp [hout]

/-- Witness for `accept_iff_u_lt_min_ratio` at a concrete in-range input:
`P = 1`, `K = 1`, `Tq = 2`, draft token `0` with `q = 1/2` everywhere,
uniform `0`, target row constant `1/2`. -/
theorem accept_iff_u_lt_min_ratio_witness :
    ¬ (logitIdx 1 1 2 0 < 0 ∨ (2 : ℤ) ≤ logitIdx 1 1 2 0) ∧
    (((fun _ => (1 : ℚ) / 2) 0 ≠ 0 →
      (fun _ => (0 : ℚ)) 0 < min 1 ((fun _ _ => (1 : ℚ) / 2) (logitIdx 1 1 2 0).toNat 0 /
          (fun _ => (1 : ℚ) / 2) 0) →
      acceptLoop 2 1 1 2 (fun _ _ => (1 : ℚ) / 2) (fun _ => (0 : ℚ))
          (fun _ => 5) ((0, fun _ => (1 : ℚ) / 2) :: []) 0 [] 0
        = acceptLoop 2 1 1 2 (fun _ _ => (1 : ℚ) / 2) (fun _ => (0 : ℚ))
            (fun _ => 5) [] (0 + 1) ([] ++ [0]) (0 + 1)) ∧
    ((fun _ => (1 : ℚ) / 2) 0 ≠ 0 →
      ¬ (fun _ => (0 : ℚ)) 0 < min 1 ((fun _ _ => (1 : ℚ) / 2) (logitIdx 1 1 2 0).toNat 0 /
          (fun _ => (1 : ℚ) / 2) 0) →
      acceptLoop 2 1 1 2 (fun _ _ => (1 : ℚ) / 2) (fun _ => (0 : ℚ))
          (fun _ => 5) ((0, fun _ => (1 : ℚ) / 2) :: []) 0 [] 0
        = ([] ++ [(fun _ => 5) (residualWeights 2
            ((fun _ _ => (1 : ℚ) / 2) (logitIdx 1 1 2 0).toNat)
            (fun _ => (1 : ℚ) / 2))], 0)) ∧
    ((fun _ => (1 : ℚ) / 2) 0 = 0 → 0 ≤ (fun _ => (0 : ℚ)) 0 →
      acceptLoop 2 1 1 2 (fun _ _ => (1 : ℚ) / 2) (fun _ => (0 : ℚ))
          (fun _ => 5) ((0, fun _ => (1 : ℚ) / 2) :: []) 0 [] 0
        = ([] ++ [(fun _ => 5) (residualWeights 2
            ((fun _ _ => (1 : ℚ) / 2) (logitIdx 1 1 2 0).toNat)
            (fun _ => (1 : ℚ) / 2))], 0))) :=
  ⟨by decide,
   accept_iff_u_lt_min_ratio 2 1 1 2 (fun _ _ => (1 : ℚ) / 2) (fun _ => (0 : ℚ))
     (fun _ => 5) 0 (fun _ => (1 : ℚ) / 2) [] 0 [] 0 (by decide)⟩

/-- Witness for `rejection_samples_residual_and_stops` at a concrete
input: rejection at index `0` (`pre = []`), `K = 1`, `Tq = 2`,
uniform `1`, `p = q = 1/2` so the acceptance probability is `1` and
`¬ (1 < 1)` rejects. -/
theorem rejection_samples_residual_and_stops_witness :
    (¬ (logitIdx 1 1 2 (List.length ([] : List (ℕ × (ℕ → ℚ)))) < 0 ∨
        (2 : ℤ) ≤ logitIdx 1 1 2 (List.length ([] : List (ℕ × (ℕ → ℚ)))))) ∧
    (¬ (fun _ => (1 : ℚ)) (List.length ([] : List (ℕ × (ℕ → ℚ)))) <
        compute_acceptance_probability
          ((fun _ _ => (1 : ℚ) / 2)
            (logitIdx 1 1 2 (List.length ([] : List (ℕ × (ℕ → ℚ))))).toNat)
          (fun _ => (1 : ℚ) / 2) 0) ∧
    ((([] : List (ℕ × (ℕ → ℚ))) ++ (0, fun _ => (1 : ℚ) / 2) :: []).length = 1) ∧
    ((∀ rest2 : List (ℕ × (ℕ → ℚ)),
      specStepTokens 2 1 1 2 (fun _ _ => (1 : ℚ) / 2) (fun _ => (1 : ℚ))
          (fun _ => 7) 9 (([] : List (ℕ × (ℕ → ℚ))) ++ (0, fun _ => (1 : ℚ) / 2) :: rest2)
        = (List.map Prod.fst ([] : List (ℕ × (ℕ → ℚ)))
            ++ [(fun _ => 7) (residualWeights 2
                  ((fun _ _ => (1 : ℚ) / 2)
                    (logitIdx 1 1 2 (List.length ([] : List (ℕ × (ℕ → ℚ))))).toNat)
                  (fun _ => (1 : ℚ) / 2))],
           List.length ([] : List (ℕ × (ℕ → ℚ))))) ∧
    (List.map Prod.fst ([] : List (ℕ × (ℕ → ℚ)))
        ++ [(fun _ => 7) (residualWeights 2
              ((fun _ _ => (1 : ℚ) / 2)
                (logitIdx 1 1 2 (List.length ([] : List (ℕ × (ℕ → ℚ))))).toNat)
              (fun _ => (1 : ℚ) / 2))]).length
      = List.length ([] : List (ℕ × (ℕ → ℚ))) + 1 ∧
    (∃ c : ℚ, 0 < c ∧ ∀ v,
      residualWeights 2
          ((fun _ _ => (1 : ℚ) / 2)
            (logitIdx 1 1 2 (List.length ([] : List (ℕ × (ℕ → ℚ))))).toNat)
          (fun _ => (1 : ℚ) / 2) v
        = c * max 0 ((fun _ _ => (1 : ℚ) / 2)
            (logitIdx 1 1 2 (List.length ([] : List (ℕ × (ℕ → ℚ))))).toNat v
            - (fun _ => (1 : ℚ) / 2) v))) :=
  ⟨by decide, by norm_num [compute_acceptance_probability], by decide,
   rejection_samples_residual_and_stops 2 1 1 2 (fun _ _ => (1 : ℚ) / 2)
     (fun _ => (1 : ℚ)) (fun _ => 7) 9 [] [] 0 (fun _ => (1 : ℚ) / 2)
     (fun j h => absurd h (Nat.not_lt_zero j)) (by decide)
     (by norm_num [compute_acceptance_probability]) (by decide)⟩

/-- Witness for `logits_fallback_accepts` at a concrete out-of-range
input: `P = 1`, `K = 2`, `Tq = 1`, index `0`, so the row index is
negative and the token is accepted unconditionally. -/
theorem logits_fallback_accepts_witness :
    (logitIdx 1 2 1 0 < 0 ∨ (1 : ℤ) ≤ logitIdx 1 2 1 0) ∧
    acceptLoop 3 1 2 1 (fun _ _ => (1 : ℚ) / 3) (fun _ => (0 : ℚ))
        (fun _ => 4) ((6, fun _ => (1 : ℚ) / 3) :: []) 0 [] 0
      = acceptLoop 3 1 2 1 (fun _ _ => (1 : ℚ) / 3) (fun _ => (0 : ℚ))
          (fun _ => 4) [] (0 + 1) ([] ++ [6]) (0 + 1) :=
  ⟨by decide,
   logits_fallback_accepts 3 1 2 1 (fun _ _ => (1 : ℚ) / 3) (fun _ => (0 : ℚ))
     (fun _ => 4) 6 (fun _ => (1 : ℚ) / 3) [] 0 [] 0 (by decide)⟩

/-! ## Generation loops: token accumulation

The three delivery loops walk the token lists returned by successive
speculative steps. The steps themselves (model calls, sampling) are
supplied as an oracle list `steps : List (List token)`; the loops below
are exact translations of the control flow that filters and accumulates
those tokens. A run of the real code corresponds to some finite `steps`
list, so every property proved for all `steps` holds of every run. -/

/-- Inner token walk of `SpeculativeDecoder.generate`
(src/speculative.py lines 364-369): append tokens one at a time,
breaking at the stop token or on reaching `max_tokens`. -/
def specGenInner (maxT stop : ℕ) : List ℕ → List ℕ → List ℕ
  | [], gen => gen
  | t :: ts, gen =>
    if t = stop then gen
    else
      if maxT ≤ (gen ++ [t]).length then gen ++ [t]
      else specGenInner maxT stop ts (gen ++ [t])

/-- Outer loop of `SpeculativeDecoder.generate` (lines 340-376):
`while len(generated_tokens) < max_tokens`, run the inner walk, then
break if the step's token list contained the stop token. -/
def specGenLoop (maxT stop : ℕ) : List (List ℕ) → List ℕ → List ℕ
  | [], gen => gen
  | s :: rest, gen =>
    if gen.length < maxT then
      if stop ∈ s then specGenInner maxT stop s gen
      else specGenLoop maxT stop rest (specGenInner maxT stop s gen)
    else gen

/-- Loop of `AdaptiveSpeculativeDecoder.generate` (lines 503-550): if
the stop token occurs in the step's tokens, extend with the slice
before its first occurrence (`new_tokens[:new_tokens.index(stop)]`)
and break; otherwise extend with the whole step and break once
`max_tokens` is reached. -/
def adaptiveGenLoop (maxT stop : ℕ) : List (List ℕ) → List ℕ → List ℕ
  | [], gen => gen
  | s :: rest, gen =>
    if gen.length < maxT then
      if stop ∈ s then gen ++ s.take (s.indexOf stop)
      else
        if maxT ≤ (gen ++ s).length then gen ++ s
        else adaptiveGenLoop maxT stop rest (gen ++ s)
    else gen

/-- One event yielded by `HelixEngine.generate_stream`
(src/inference.py): the token id (`-1` for the length-cap sentinel)
and the `is_final` flag. -/
structure StreamEvent where
  token_id : ℤ
  is_final : Bool
deriving DecidableEq

/-- Inner token walk of `HelixEngine.generate_stream` (lines 494-541):
a stop token yields the final sentinel (carrying the stop id) and
returns; otherwise the token is yielded as a non-final event, tracked
in `generated_tokens`, and reaching `max_tokens` yields the `-1`
sentinel and returns. Returns (events, generated_tokens, returned). -/
def streamInner (maxT : ℕ) (stop : ℤ) :
    List ℤ → List ℤ → List StreamEvent × List ℤ × Bool
  | [], gen => ([], gen, false)
  | t :: ts, gen =>
    if t = stop then ([⟨t, true⟩], gen, true)
    else
      if maxT ≤ (gen ++ [t]).length then
        ([⟨t, false⟩, ⟨-1, true⟩], gen ++ [t], true)
      else
        (⟨t, false⟩ :: (streamInner maxT stop ts (gen ++ [t])).1,
          (streamInner maxT stop ts (gen ++ [t])).2.1,
          (streamInner maxT stop ts (gen ++ [t])).2.2)

/-- Outer loop of `HelixEngine.generate_stream` (line 460):
`while len(generated_tokens) < config.max_tokens`. -/
def streamLoop (maxT : ℕ) (stop : ℤ) : List (List ℤ) → List ℤ → List StreamEvent
  | [], _ => []
  | s :: rest, gen =>
    if gen.length < maxT then
      if (streamInner maxT stop s gen).2.2 then (streamInner maxT stop s gen).1
      else (streamInner maxT stop s gen).1
        ++ streamLoop maxT stop rest (streamInner maxT stop s gen).2.1
    else []

/-- The slice of `s` before the first occurrence of `stop` does not
contain `stop`. -/
theorem not_mem_take_indexOf (s : List ℕ) (stop : ℕ) :
    stop ∉ s.take (s.indexOf stop) := by
  induction s with
  | nil => simp
  | cons a l ih =>
    by_cases ha : a = stop
    · subst ha; simp
    · rw [List.indexOf_cons_ne _ ha, List.take_succ_cons]
      intro hmem
      rcases List.mem_cons.mp hmem with h | h
      · exact ha h.symm
      · exact ih h

theorem specGenInner_not_mem_stop (maxT stop : ℕ) (ts : List ℕ) :
    ∀ gen : List ℕ, stop ∉ gen → stop ∉ specGenInner maxT stop ts gen := by
  induction ts with
  | nil => intro gen hg; simpa [specGenInner] using hg
  | cons t ts ih =>
    intro gen hg
    rw [specGenInner]
    by_cases ht : t = stop
    · rw [if_pos ht]; exact hg
    · rw [if_neg ht]
      have hg2 : stop ∉ gen ++ [t] := by
        simp only [List.mem_append, List.mem_singleton]
        rintro (h | h)
        · exact hg h
        · exact ht h.symm
      by_cases hcap : maxT ≤ (gen ++ [t]).length
      · rw [if_pos hcap]; exact hg2
      · rw [if_neg hcap]; exact ih (gen ++ [t]) hg2

theorem specGenLoop_not_mem_stop (maxT stop : ℕ) (steps : List (List ℕ)) :
    ∀ gen : List ℕ, stop ∉ gen → stop ∉ specGenLoop maxT stop steps gen := by
  induction steps with
  | nil => intro gen hg; simpa [specGenLoop] using hg
  | cons s rest ih =>
    intro gen hg
    rw [specGenLoop]
    by_cases hguard : gen.length < maxT
    · rw [if_pos hguard]
      have hinner := specGenInner_not_mem_stop maxT stop s gen hg
      by_cases hs : stop ∈ s
      · rw [if_pos hs]; exact hinner
      · rw [if_neg hs]; exact ih _ hinner
    · rw [if_neg hguard]; exact hg

theorem adaptiveGenLoop_not_mem_stop (maxT stop : ℕ) (steps : List (List ℕ)) :
    ∀ gen : List ℕ, stop ∉ gen → stop ∉ adaptiveGenLoop maxT stop steps gen := by
  induction steps with
  | nil => intro gen hg; simpa [adaptiveGenLoop] using hg
  | cons s rest ih =>
    intro gen hg
    rw [adaptiveGenLoop]
    by_cases hguard : gen.length < maxT
    · rw [if_pos hguard]
      by_cases hs : stop ∈ s
      · rw [if_pos hs]
        simp only [List.mem_append]
        rintro (h | h)
        · exact hg h
        · exact not_mem_take_indexOf s stop h
      · rw [if_neg hs]
        have hg2 : stop ∉ gen ++ s := by
          simp only [List.mem_append]
          rintro (h | h)
          · exact hg h
          · exact hs h
        by_cases hcap : maxT ≤ (gen ++ s).length
        · rw [if_pos hcap]; exact hg2
        · rw [if_neg hcap]; exact ih _ hg2
    · rw [if_neg hguard]; exact hg

theorem streamInner_nonfinal_ne_stop (maxT : ℕ) (stop : ℤ) (ts : List ℤ) :
    ∀ gen : List ℤ, ∀ e ∈ (streamInner maxT stop ts gen).1,
      e.is_final = false → e.token_id ≠ stop := by
  induction ts with
  | nil => intro gen e he; simp [streamInner] at he
  | cons t ts ih =>
    intro gen e he hef
    rw [streamInner] at he
    by_cases ht : t = stop
    · rw [if_pos ht] at he
      simp only [List.mem_singleton] at he
      rw [he] at hef; simp at hef
    · rw [if_neg ht] at he
      by_cases hcap : maxT ≤ (gen ++ [t]).length
      · rw [if_pos hcap] at he
        simp only [List.mem_cons, List.mem_singleton, List.not_mem_nil,
          or_false] at he
        rcases he with he | he
        · rw [he]; exact ht
        · rw [he] at hef; simp at hef
      · rw [if_neg hcap] at he
        simp only [List.mem_cons] at he
        rcases he with he | he
        · rw [he]; exact ht
        · exact ih (gen ++ [t]) e he hef

theorem streamLoop_nonfinal_ne_stop (maxT : ℕ) (stop : ℤ) (steps : List (List ℤ)) :
    ∀ gen : List ℤ, ∀ e ∈ streamLoop maxT stop steps gen,
      e.is_final = false → e.token_id ≠ stop := by
  induction steps with
  | nil => intro gen e he; simp [streamLoop] at he
  | cons s rest ih =>
    intro gen e he hef
    rw [streamLoop] at he
    by_cases hguard : gen.length < maxT
    · rw [if_pos hguard] at he
      by_cases hdone : (streamInner maxT stop s gen).2.2 = true
      · rw [if_pos hdone] at he
        exact streamInner_nonfinal_ne_stop maxT stop s gen e he hef
      · rw [if_neg hdone, List.mem_append] at he
        rcases he with he | he
        · exact streamInner_nonfinal_ne_stop maxT stop s gen e he hef
        · exact ih _ e he hef
    · rw [if_neg hguard] at he
      simp at he

/-- C6: stop-token containment. The token list delivered by
`SpeculativeDecoder.generate`, the token list delivered by
`AdaptiveSpeculativeDecoder.generate`, and the non-final `Token`
events of `HelixEngine.generate_stream` never contain the stop token,
for every sequence of step outputs — in particular for generations
that terminate because a stop token was produced, emission stops
strictly before it. -/
theorem stop_token_containment (maxT : ℕ) (stop : ℕ) (stopz : ℤ)
    (steps : List (List ℕ)) (stepsz : List (List ℤ)) :
    stop ∉ specGenLoop maxT stop steps [] ∧
    stop ∉ adaptiveGenLoop maxT stop steps [] ∧
    (∀ e ∈ streamLoop maxT stopz stepsz [], e.is_final = false →
      e.token_id ≠ stopz) :=
  ⟨specGenLoop_not_mem_stop maxT stop steps [] (List.not_mem_nil stop),
   adaptiveGenLoop_not_mem_stop maxT stop steps [] (List.not_mem_nil stop),
   streamLoop_nonfinal_ne_stop maxT stopz stepsz []⟩

theorem specGenInner_length_le (maxT stop : ℕ) (ts : List ℕ) :
    ∀ gen : List ℕ, gen.length < maxT →
      (specGenInner maxT stop ts gen).length ≤ maxT := by
  induction ts with
  | nil => intro gen h; rw [specGenInner]; omega
  | cons t ts ih =>
    intro gen h
    rw [specGenInner]
    by_cases ht : t = stop
    · rw [if_pos ht]; omega
    · rw [if_neg ht]
      by_cases hcap : maxT ≤ (gen ++ [t]).length
      · rw [if_pos hcap]
        simp only [List.length_append, List.length_singleton]
        omega
      · rw [if_neg hcap]
        exact ih _ (not_le.mp hcap)

theorem specGenLoop_length_le (maxT stop : ℕ) (steps : List (List ℕ)) :
    ∀ gen : List ℕ, gen.length ≤ maxT →
      (specGenLoop maxT stop steps gen).length ≤ maxT := by
  induction steps with
  | nil => intro gen h; rw [specGenLoop]; exact h
  | cons s rest ih =>
    intro gen h
    rw [specGenLoop]
    by_cases hguard : gen.length < maxT
    · rw [if_pos hguard]
      have hinner := specGenInner_length_le maxT stop s gen hguard
      by_cases hs : stop ∈ s
      · rw [if_pos hs]; exact hinner
      · rw [if_neg hs]; exact ih _ hinner
    · rw [if_neg hguard]; exact h

theorem streamInner_count (maxT : ℕ) (stop : ℤ) (ts : List ℤ) :
    ∀ gen : List ℤ, gen.length < maxT →
      ((streamInner maxT stop ts gen).1.filter fun e => !e.is_final).length
          + gen.length = (streamInner maxT stop ts gen).2.1.length
        ∧ (streamInner maxT stop ts gen).2.1.length ≤ maxT := by
  induction ts with
  | nil =>
    intro gen h
    rw [streamInner]
    exact ⟨by simp, le_of_lt h⟩
  | cons t ts ih =>
    intro gen h
    rw [streamInner]
    by_cases ht : t = stop
    · rw [if_pos ht]
      exact ⟨by simp, le_of_lt h⟩
    · rw [if_neg ht]
      by_cases hcap : maxT ≤ (gen ++ [t]).length
      · rw [if_pos hcap]
        refine ⟨by simp [Nat.add_comm], ?_⟩
        simp only [List.length_append, List.length_singleton]
        omega
      · rw [if_neg hcap]
        obtain ⟨ih1, ih2⟩ := ih (gen ++ [t]) (not_le.mp hcap)
        refine ⟨?_, ih2⟩
        simp only [List.filter_cons, Bool.not_false, if_pos, List.length_cons]
        simp only [List.length_append, List.length_singleton] at ih1
        omega

theorem streamLoop_count (maxT : ℕ) (stop : ℤ) (steps : List (List ℤ)) :
    ∀ gen : List ℤ,
      ((streamLoop maxT stop steps gen).filter fun e => !e.is_final).length
        ≤ maxT - gen.length := by
  induction steps with
  | nil => intro gen; rw [streamLoop]; simp
  | cons s rest ih =>
    intro gen
    rw [streamLoop]
    by_cases hguard : gen.length < maxT
    · rw [if_pos hguard]
      obtain ⟨h1, h2⟩ := streamInner_count maxT stop s gen hguard
      by_cases hdone : (streamInner maxT stop s gen).2.2 = true
      · rw [if_pos hdone]; omega
      · rw [if_neg hdone]
        have h3 := ih (streamInner maxT stop s gen).2.1
        rw [List.filter_append, List.length_append]
        omega
    · rw [if_neg hguard]; simp

theorem adaptiveGenLoop_length_le (maxT stop : ℕ) (steps : List (List ℕ)) :
    ∀ gen : List ℕ,
      (adaptiveGenLoop maxT stop steps gen).length
        ≤ max gen.length ((maxT - 1) + (steps.map List.length).foldr max 0) := by
  induction steps with
  | nil => intro gen; rw [adaptiveGenLoop]; exact le_max_left _ _
  | cons s rest ih =>
    intro gen
    rw [adaptiveGenLoop]
    simp only [List.map_cons, List.foldr_cons]
    by_cases hguard : gen.length < maxT
    · rw [if_pos hguard]
      by_cases hs : stop ∈ s
      · rw [if_pos hs]
        have htake : (gen ++ s.take (s.indexOf stop)).length
            ≤ gen.length + s.length := by
          simp only [List.length_append, List.length_take]
          omega
        omega
      · rw [if_neg hs]
        by_cases hcap : maxT ≤ (gen ++ s).length
        · rw [if_pos hcap]
          simp only [List.length_append]
          omega
        · rw [if_neg hcap]
          have hrec := ih (gen ++ s)
          simp only [List.length_append] at hrec hcap
          omega
    · rw [if_neg hguard]
      omega

/-- C5 counterexample: for `AdaptiveSpeculativeDecoder.generate` with
`max_tokens = 1`, a single speculative step returning the two tokens
`[0, 1]` (no stop token `99`) makes the loop extend the generated list
with the whole step before checking the cap, so the caller receives 2
tokens — more than `max_tokens`. -/
theorem adaptive_length_cap_counterexample :
    adaptiveGenLoop 1 99 [[0, 1]] [] = [0, 1] ∧
      ¬ (adaptiveGenLoop 1 99 [[0, 1]] []).length ≤ 1 := by
  constructor <;> decide

/-- C5 (amended): the token list of `SpeculativeDecoder.generate` and
the non-final `Token` events of `HelixEngine.generate_stream` never
exceed `max_tokens`; the token list of
`AdaptiveSpeculativeDecoder.generate` may exceed `max_tokens`, but only
within the last step: it is bounded by `(max_tokens - 1)` plus the
largest per-step token count. -/
theorem length_cap_amended (maxT stop : ℕ) (stopz : ℤ)
    (steps : List (List ℕ)) (stepsz : List (List ℤ)) :
    (specGenLoop maxT stop steps []).length ≤ maxT ∧
    ((streamLoop maxT stopz stepsz []).filter fun e => !e.is_final).length
      ≤ maxT ∧
    (adaptiveGenLoop maxT stop steps []).length
      ≤ (maxT - 1) + (steps.map List.length).foldr max 0 := by
  refine ⟨specGenLoop_length_le maxT stop steps [] (by simp), ?_, ?_⟩
  · have h := streamLoop_count maxT stopz stepsz []
    simpa using h
  · have h := adaptiveGenLoop_length_le maxT stop steps []
    simpa using h

/-! ## Adaptive controller (src/speculative.py, AdaptiveSpeculativeDecoder) -/

/-- The controller state of `AdaptiveSpeculativeDecoder`
(src/speculative.py lines 437-464): the exponentially smoothed
acceptance rate, the current speculation depth and the construction
parameters. -/
structure AdaptiveState where
  ema_acceptance_rate : ℚ
  current_depth : ℤ
  min_depth : ℤ
  max_depth : ℤ
  target_acceptance_rate : ℚ
deriving DecidableEq

/-- Constructor state (lines 457-464): `current_depth = initial_depth`,
initial smoothed rate `0.5`. -/
def AdaptiveState.init (initial_depth min_depth max_depth : ℤ)
    (target : ℚ) : AdaptiveState :=
  ⟨1 / 2, initial_depth, min_depth, max_depth, target⟩

/-- `self.alpha = 0.3` (line 464). -/
def alpha : ℚ := 3 / 10

/-- The per-step adaptive logic (lines 524-536): update the EMA with
`ema ← alpha * rate + (1 - alpha) * ema`, then move the depth by one
toward the band, clamped by `min`/`max`, using the `±0.1` band around
`target_acceptance_rate`. -/
def adaptiveUpdate (s : AdaptiveState) (rate : ℚ) : AdaptiveState :=
  let ema := alpha * rate + (1 - alpha) * s.ema_acceptance_rate
  { s with
    ema_acceptance_rate := ema
    current_depth :=
      if ema > s.target_acceptance_rate + 1 / 10 then
        min s.max_depth (s.current_depth + 1)
      else if ema < s.target_acceptance_rate - 1 / 10 then
        max s.min_depth (s.current_depth - 1)
      else s.current_depth }

theorem adaptiveUpdate_params (s : AdaptiveState) (rate : ℚ) :
    (adaptiveUpdate s rate).min_depth = s.min_depth ∧
    (adaptiveUpdate s rate).max_depth = s.max_depth ∧
    (adaptiveUpdate s rate).target_acceptance_rate = s.target_acceptance_rate :=
  ⟨rfl, rfl, rfl⟩

theorem adaptiveUpdate_depth_bounds (s : AdaptiveState) (rate : ℚ)
    (h1 : s.min_depth ≤ s.current_depth) (h2 : s.current_depth ≤ s.max_depth) :
    s.min_depth ≤ (adaptiveUpdate s rate).current_depth ∧
      (adaptiveUpdate s rate).current_depth ≤ s.max_depth := by
  rw [adaptiveUpdate]
  dsimp only
  split_ifs with hup hdown
  · omega
  · omega
  · omega

theorem adaptiveUpdate_fold_bounds (rates : List ℚ) :
    ∀ s : AdaptiveState, s.min_depth ≤ s.current_depth →
      s.current_depth ≤ s.max_depth →
      s.min_depth ≤ (rates.foldl adaptiveUpdate s).current_depth ∧
        (rates.foldl adaptiveUpdate s).current_depth ≤ s.max_depth := by
  induction rates with
  | nil => intro s h1 h2; exact ⟨h1, h2⟩
  | cons r rates ih =>
    intro s h1 h2
    obtain ⟨g1, g2⟩ := adaptiveUpdate_depth_bounds s r h1 h2
    have := ih (adaptiveUpdate s r)
      (by rw [(adaptiveUpdate_params s r).1]; exact g1)
      (by rw [(adaptiveUpdate_params s r).2.1]; exact g2)
    rw [(adaptiveUpdate_params s r).1, (adaptiveUpdate_params s r).2.1] at this
    exact this

/-- C7: after each step with observed acceptance rate `rate`, the
smoothed rate becomes `0.3 * rate + 0.7 * ema` (with initial smoothed
rate `0.5`); the depth is incremented by exactly 1 iff the new smoothed
rate exceeds `target + 0.1` and `K < K_max`, decremented by exactly 1
iff it is below `target - 0.1` and `K > K_min`, and left unchanged
otherwise — so over any run the depth stays within
`[min_depth, max_depth]`. -/
theorem adaptive_controller_step (s : AdaptiveState) (rate : ℚ)
    (h1 : s.min_depth ≤ s.current_depth) (h2 : s.current_depth ≤ s.max_depth) :
    (adaptiveUpdate s rate).ema_acceptance_rate
        = 3 / 10 * rate + (1 - 3 / 10) * s.ema_acceptance_rate ∧
    ((adaptiveUpdate s rate).current_depth = s.current_depth + 1 ↔
      ((adaptiveUpdate s rate).ema_acceptance_rate
          > s.target_acceptance_rate + 1 / 10 ∧
        s.current_depth < s.max_depth)) ∧
    ((adaptiveUpdate s rate).current_depth = s.current_depth - 1 ↔
      ((adaptiveUpdate s rate).ema_acceptance_rate
          < s.target_acceptance_rate - 1 / 10 ∧
        s.min_depth < s.current_depth)) ∧
    (¬ ((adaptiveUpdate s rate).ema_acceptance_rate
          > s.target_acceptance_rate + 1 / 10 ∧
        s.current_depth < s.max_depth) →
      ¬ ((adaptiveUpdate s rate).ema_acceptance_rate
          < s.target_acceptance_rate - 1 / 10 ∧
        s.min_depth < s.current_depth) →
      (adaptiveUpdate s rate).current_depth = s.current_depth) ∧
    (∀ rates : List ℚ,
      s.min_depth ≤ (rates.foldl adaptiveUpdate s).current_depth ∧
        (rates.foldl adaptiveUpdate s).current_depth ≤ s.max_depth) ∧
    (∀ d mn mx : ℤ, ∀ t : ℚ,
      (AdaptiveState.init d mn mx t).ema_acceptance_rate = 1 / 2) := by
  have hema : (adaptiveUpdate s rate).ema_acceptance_rate
      = 3 / 10 * rate + (1 - 3 / 10) * s.ema_acceptance_rate := rfl
  refine ⟨hema, ?_, ?_, ?_,
    fun rates => adaptiveUpdate_fold_bounds rates s h1 h2,
    fun _ _ _ _ => rfl⟩
  all_goals
    rw [hema]
    rw [show (adaptiveUpdate s rate).current_depth
      = if 3 / 10 * rate + (1 - 3 / 10) * s.ema_acceptance_rate
            > s.target_acceptance_rate + 1 / 10 then
          min s.max_depth (s.current_depth + 1)
        else if 3 / 10 * rate + (1 - 3 / 10) * s.ema_acceptance_rate
            < s.target_acceptance_rate - 1 / 10 then
          max s.min_depth (s.current_depth - 1)
        else s.current_depth from rfl]
  · split_ifs with hup hdown
    · constructor
      · intro heq
        refine ⟨hup, ?_⟩
        omega
      · intro ⟨_, hlt⟩
        omega
    · constructor
      · intro heq; omega
      · intro ⟨habs, _⟩; exact absurd habs (by linarith)
    · constructor
      · intro heq; omega
      · intro ⟨habs, _⟩; exact absurd habs hup
  · split_ifs with hup hdown
    · constructor
      · intro heq; omega
      · intro ⟨habs, _⟩; exact absurd hup (by linarith)
    · constructor
      · intro heq
        refine ⟨hdown, ?_⟩
        omega
      · intro ⟨_, hlt⟩
        omega
    · constructor
      · intro heq; omega
      · intro ⟨habs, _⟩; exact absurd habs hdown
  · intro hnup hndown
    split_ifs with hup hdown
    · have hge : ¬ s.current_depth < s.max_depth := fun hlt => hnup ⟨hup, hlt⟩
      omega
    · have hle : ¬ s.min_depth < s.current_depth := fun hlt => hndown ⟨hdown, hlt⟩
      omega
    · rfl

/-- Witness for `adaptive_controller_step` at the constructor defaults
`initial_depth = 4`, bounds `[1, 8]`, target `0.6`, step rate `1`. -/
theorem adaptive_controller_step_witness :
    ((⟨1 / 2, 4, 1, 8, 3 / 5⟩ : AdaptiveState).min_depth
        ≤ (⟨1 / 2, 4, 1, 8, 3 / 5⟩ : AdaptiveState).current_depth) ∧
    ((⟨1 / 2, 4, 1, 8, 3 / 5⟩ : AdaptiveState).current_depth
        ≤ (⟨1 / 2, 4, 1, 8, 3 / 5⟩ : AdaptiveState).max_depth) ∧
    ((adaptiveUpdate ⟨1 / 2, 4, 1, 8, 3 / 5⟩ 1).ema_acceptance_rate
        = 3 / 10 * 1 + (1 - 3 / 10) * (1 / 2) ∧
      ((adaptiveUpdate ⟨1 / 2, 4, 1, 8, 3 / 5⟩ 1).current_depth = 4 + 1 ↔
        ((adaptiveUpdate ⟨1 / 2, 4, 1, 8, 3 / 5⟩ 1).ema_acceptance_rate
            > 3 / 5 + 1 / 10 ∧ (4 : ℤ) < 8)) ∧
      ((adaptiveUpdate ⟨1 / 2, 4, 1, 8, 3 / 5⟩ 1).current_depth = 4 - 1 ↔
        ((adaptiveUpdate ⟨1 / 2, 4, 1, 8, 3 / 5⟩ 1).ema_acceptance_rate
            < 3 / 5 - 1 / 10 ∧ (1 : ℤ) < 4)) ∧
      (¬ ((adaptiveUpdate ⟨1 / 2, 4, 1, 8, 3 / 5⟩ 1).ema_acceptance_rate
            > 3 / 5 + 1 / 10 ∧ (4 : ℤ) < 8) →
        ¬ ((adaptiveUpdate ⟨1 / 2, 4, 1, 8, 3 / 5⟩ 1).ema_acceptance_rate
            < 3 / 5 - 1 / 10 ∧ (1 : ℤ) < 4) →
        (adaptiveUpdate ⟨1 / 2, 4, 1, 8, 3 / 5⟩ 1).current_depth = 4) ∧
      (∀ rates : List ℚ,
        (1 : ℤ) ≤ (rates.foldl adaptiveUpdate ⟨1 / 2, 4, 1, 8, 3 / 5⟩).current_depth ∧
          (rates.foldl adaptiveUpdate ⟨1 / 2, 4, 1, 8, 3 / 5⟩).current_depth ≤ 8) ∧
      (∀ d mn mx : ℤ, ∀ t : ℚ,
        (AdaptiveState.init d mn mx t).ema_acceptance_rate = 1 / 2)) :=
  ⟨by decide, by decide,
   adaptive_controller_step ⟨1 / 2, 4, 1, 8, 3 / 5⟩ 1 (by decide) (by decide)⟩

/-! ## Paged KV cache (src/kv_cache.py)

The pool's `_storage` tensor has shape
`(num_blocks, 2, num_layers, block_size, num_heads, num_dim)`; the
embedding keys it by `(block_id, layer, offset)` and treats the
`(num_heads, head_dim)`-shaped K and V slices of one token as opaque
values of a type `α`. The `.to(dtype)` cast applied on store is the
function `conv`. HuggingFace legacy-format caches are per-layer pairs
of K and V position lists (`List (List α × List α)`). -/

section KVCache

variable {α : Type} [Inhabited α]

/-- `BlockAllocator` (src/kv_cache.py lines 52-130). The per-block
metadata (`Block.ref_count`, line 40) is the function `ref_count`; the
free stack is LIFO (`list.pop` from / `append` to the end). -/
structure BlockAllocator (α : Type) where
  num_blocks : ℕ
  block_size : ℕ
  num_layers : ℕ
  ref_count : ℕ → ℕ
  free_blocks : List ℕ
  storage : ℕ → ℕ → ℕ → α × α

/-- Constructor (lines 61-100): all ref counts 0, free stack
`list(range(num_blocks))`, zeroed storage. -/
def BlockAllocator.init (α : Type) [Inhabited α]
    (num_blocks block_size num_layers : ℕ) : BlockAllocator α :=
  ⟨num_blocks, block_size, num_layers, fun _ => 0, List.range num_blocks,
    fun _ _ _ => (default, default)⟩

/-- `BlockAllocator.allocate` (lines 102-110): pop the last id off the
free stack and increment its ref count; `None` when exhausted. -/
def BlockAllocator.allocate (a : BlockAllocator α) :
    Option (ℕ × BlockAllocator α) :=
  match a.free_blocks.getLast? with
  | none => none
  | some b =>
    some (b, { a with
      free_blocks := a.free_blocks.dropLast
      ref_count := fun i => if i = b then a.ref_count i + 1 else a.ref_count i })

/-- `BlockAllocator.free` (lines 112-117) together with `Block.free`
(line 48, `ref_count = max(0, ref_count - 1)`, which is truncated
subtraction on ℕ): decrement, and push onto the free stack when the
count reaches 0. -/
def BlockAllocator.free (a : BlockAllocator α) (block_id : ℕ) :
    BlockAllocator α :=
  { a with
    ref_count := fun i =>
      if i = block_id then a.ref_count block_id - 1 else a.ref_count i
    free_blocks :=
      if a.ref_count block_id - 1 = 0 then a.free_blocks ++ [block_id]
      else a.free_blocks }

/-- `SequenceBlockTable` (lines 133-165). -/
structure SequenceBlockTable where
  block_ids : List ℕ
  block_size : ℕ
  num_tokens : ℕ
deriving DecidableEq

/-- `get_physical_location` (lines 147-153):
`(block_ids[p // B], p % B)`. -/
def SequenceBlockTable.get_physical_location (t : SequenceBlockTable)
    (logical_pos : ℕ) : ℕ × ℕ :=
  (t.block_ids.getD (logical_pos / t.block_size) 0,
   logical_pos % t.block_size)

/-- `needs_new_block` (lines 155-157). -/
def SequenceBlockTable.needs_new_block (t : SequenceBlockTable) : Prop :=
  t.num_tokens % t.block_size = 0

instance (t : SequenceBlockTable) : Decidable t.needs_new_block :=
  inferInstanceAs (Decidable (_ = _))

/-- `add_block` (lines 159-161). -/
def SequenceBlockTable.add_block (t : SequenceBlockTable)
    (block_id : ℕ) : SequenceBlockTable :=
  { t with block_ids := t.block_ids ++ [block_id] }

/-- `append_token` (lines 163-165). -/
def SequenceBlockTable.append_token (t : SequenceBlockTable) :
    SequenceBlockTable :=
  { t with num_tokens := t.num_tokens + 1 }

/-- Python `dict` lookup on an association list. -/
def dictGet? {β : Type} : List (ℕ × β) → ℕ → Option β
  | [], _ => none
  | (k, v) :: rest, key => if k = key then some v else dictGet? rest key

/-- Python `dict` assignment. -/
def dictSet {β : Type} : List (ℕ × β) → ℕ → β → List (ℕ × β)
  | [], key, val => [(key, val)]
  | (k, v) :: rest, key, val =>
    if k = key then (k, val) :: rest else (k, v) :: dictSet rest key val

/-- Python `del dict[key]`. -/
def dictErase {β : Type} : List (ℕ × β) → ℕ → List (ℕ × β)
  | [], _ => []
  | (k, v) :: rest, key =>
    if k = key then rest else (k, v) :: dictErase rest key

/-- `PagedKVCache` (lines 168-203): an allocator plus the
`seq_id → SequenceBlockTable` dictionary. -/
structure PagedKVCache (α : Type) where
  block_size : ℕ
  allocator : BlockAllocator α
  sequences : List (ℕ × SequenceBlockTable)
  next_seq_id : ℕ

/-- Constructor (lines 180-203). -/
def PagedKVCache.init (α : Type) [Inhabited α]
    (num_blocks block_size num_layers : ℕ) : PagedKVCache α :=
  ⟨block_size, BlockAllocator.init α num_blocks block_size num_layers, [], 0⟩

/-- `allocate_sequence` (lines 205-217): new id, empty table, one
block allocated up front. `none` where Python raises the OOM
`RuntimeError`. -/
def PagedKVCache.allocate_sequence (c : PagedKVCache α) :
    Option (ℕ × PagedKVCache α) :=
  match c.allocator.allocate with
  | none => none
  | some (b, a) =>
    some (c.next_seq_id,
      { c with
        next_seq_id := c.next_seq_id + 1
        allocator := a
        sequences := dictSet c.sequences c.next_seq_id
          ⟨[] ++ [b], c.block_size, 0⟩ })

/-- `free_sequence` (lines 219-228): release each block in the table's
list, walking `table.block_ids` front to back, then forget the id;
no-op on an unknown id. -/
def PagedKVCache.free_sequence (c : PagedKVCache α) (seq_id : ℕ) :
    PagedKVCache α :=
  match dictGet? c.sequences seq_id with
  | none => c
  | some t =>
    { c with
      allocator := t.block_ids.foldl BlockAllocator.free c.allocator
      sequences := dictErase c.sequences seq_id }

/-- `seq_len` as read by `store_hf_cache` from the first layer's K
tensor (`cache_tuples[0][0].shape[2]`, line 353). -/
def hfSeqLen (pkv : List (List α × List α)) : ℕ :=
  (pkv.getD 0 ([], [])).1.length

/-- The inner `for layer_idx in range(num_layers)` of `store_hf_cache`
(lines 387-402): write every layer's K/V for input position `pos` at
physical location `(b, off)`, applying the `.to(dtype)` cast `conv`. -/
def writeToken (conv : α → α) (st : ℕ → ℕ → ℕ → α × α) (b off : ℕ)
    (pkv : List (List α × List α)) (pos : ℕ) : ℕ → ℕ → ℕ → α × α :=
  fun b2 l off2 =>
    if b2 = b ∧ off2 = off then
      match pkv.get? l with
      | some kv => (conv (kv.1.getD pos default), conv (kv.2.getD pos default))
      | none => st b2 l off2
    else st b2 l off2

/-- Lines 376-381 of `store_hf_cache`: allocate a fresh block when the
trailing block is full. -/
def maybeNewBlock (a : BlockAllocator α) (t : SequenceBlockTable) :
    Option (BlockAllocator α × SequenceBlockTable) :=
  if t.needs_new_block ∧ 0 < t.num_tokens then
    match a.allocate with
    | none => none
    | some (b, a2) => some (a2, t.add_block b)
  else some (a, t)

/-- Lines 376-404 of `store_hf_cache` for one position: maybe allocate,
locate `num_tokens`, write all layers, `append_token`. -/
def storeToken (conv : α → α) (pkv : List (List α × List α)) (pos : ℕ)
    (a : BlockAllocator α) (t : SequenceBlockTable) :
    Option (BlockAllocator α × SequenceBlockTable) :=
  match maybeNewBlock a t with
  | none => none
  | some (a2, t2) =>
    some
      ({ a2 with
          storage :=
            writeToken conv a2.storage
              (t2.get_physical_location t2.num_tokens).1
              (t2.get_physical_location t2.num_tokens).2 pkv pos },
       t2.append_token)

/-- The `for pos in range(start_pos, seq_len)` loop of
`store_hf_cache` (lines 374-404). -/
def storeLoop (conv : α → α) (pkv : List (List α × List α)) :
    List ℕ → BlockAllocator α → SequenceBlockTable →
      Option (BlockAllocator α × SequenceBlockTable)
  | [], a, t => some (a, t)
  | pos :: rest, a, t =>
    match storeToken conv pkv pos a t with
    | none => none
    | some (a2, t2) => storeLoop conv pkv rest a2 t2

/-- `PagedKVCache.store_hf_cache` (lines 318-404), legacy-tuple branch:
copy positions `[start_pos, seq_len)` of the per-layer K/V lists into
the paged storage. `none` where Python raises (unknown lane: KeyError;
pool exhausted: RuntimeError). An empty cache tuple is a no-op. -/
def PagedKVCache.store_hf_cache (conv : α → α) (c : PagedKVCache α)
    (seq_id : ℕ) (pkv : List (List α × List α)) (start_pos : ℕ) :
    Option (PagedKVCache α) :=
  match dictGet? c.sequences seq_id with
  | none => none
  | some t =>
    if pkv.length = 0 then some c
    else
      match storeLoop conv pkv
          (List.range' start_pos (hfSeqLen pkv - start_pos))
          c.allocator t with
      | none => none
      | some (a, t2) =>
        some { c with
          allocator := a
          sequences := dictSet c.sequences seq_id t2 }

/-- `num_tokens_in_block` for block index `i` (lines 448-451):
`min(i*B + B, num_tokens) - i*B`. -/
def tokensInBlock (B num i : ℕ) : ℕ := min (i * B + B) num - i * B

/-- The per-layer gather of `get_hf_cache` (lines 441-459): for each
block of the lane, in order, take its valid rows, and concatenate. -/
def gatherLayer (st : ℕ → ℕ → ℕ → α × α) (t : SequenceBlockTable)
    (B l : ℕ) : List (α × α) :=
  (t.block_ids.enum.map fun p =>
    (List.range (tokensInBlock B t.num_tokens p.1)).map fun off =>
      st p.2 l off).flatten

/-- `PagedKVCache.get_hf_cache` (lines 406-486), legacy-tuple return
path (`return_dynamic_cache = False`): per layer of the allocator,
the concatenated K rows and V rows of the lane's blocks; `None` for an
unknown or empty lane. (The `DynamicCache` path returns the same
elements after a lossless float32 upcast.) -/
def PagedKVCache.get_hf_cache (c : PagedKVCache α) (seq_id : ℕ) :
    Option (List (List α × List α)) :=
  match dictGet? c.sequences seq_id with
  | none => none
  | some t =>
    if t.num_tokens = 0 then none
    else
      some ((List.range c.allocator.num_layers).map fun l =>
        ((gatherLayer c.allocator.storage t c.block_size l).map Prod.fst,
         (gatherLayer c.allocator.storage t c.block_size l).map Prod.snd))

/-- `get_cached_length` (lines 488-491). -/
def PagedKVCache.get_cached_length (c : PagedKVCache α) (seq_id : ℕ) : ℕ :=
  match dictGet? c.sequences seq_id with
  | none => 0
  | some t => t.num_tokens

/-- `get_hf_cache` as a state transformer: the method body only reads
the lane table and the pool storage and builds fresh lists (the
`torch.cat` results are new tensors), performing no assignment to the
cache, the table, or the allocator, so its state component is the
unchanged input state. -/
def PagedKVCache.get_hf_cache_op (c : PagedKVCache α) (seq_id : ℕ) :
    Option (List (List α × List α)) × PagedKVCache α :=
  (c.get_hf_cache seq_id, c)

/-- A sequence of `store_hf_cache` calls `(pkv, start_pos)` on one
lane. -/
def storeCalls (conv : α → α) :
    List (List (List α × List α) × ℕ) → PagedKVCache α → ℕ →
      Option (PagedKVCache α)
  | [], c, _ => some c
  | (pkv, s) :: rest, c, sid =>
    match c.store_hf_cache conv sid pkv s with
    | none => none
    | some c2 => storeCalls conv rest c2 sid

/-! ### C4: the allocator invariant -/

/-- An allocator API call: `allocate()` or `free(block_id)`. -/
inductive AllocAction where
  | alloc : AllocAction
  | free (block_id : ℕ) : AllocAction
deriving DecidableEq

/-- Apply one call; a failed `allocate` (pool exhausted) returns `None`
in Python and leaves the state unchanged. -/
def applyAction (a : BlockAllocator α) : AllocAction → BlockAllocator α
  | AllocAction.alloc =>
    match a.allocate with
    | none => a
    | some p => p.2
  | AllocAction.free b => a.free b

/-- Apply a sequence of calls. -/
def applyActions (a : BlockAllocator α) (acts : List AllocAction) :
    BlockAllocator α :=
  acts.foldl applyAction a

/-- The number of blocks with a positive ref count. -/
def liveBlocks (a : BlockAllocator α) : ℕ :=
  (List.range a.num_blocks).countP fun b => a.ref_count b != 0

/-- C4 counterexample: the claim quantifies over any sequence of
`allocate` and `free` calls, but `free` on a block whose ref count is
already 0 (a double free — a legal Python call, `blocks[0]` exists)
pushes a duplicate id onto the free stack: from a fresh 1-block
allocator, `free(0)` yields `|free_stack| + |{ref > 0}| = 2 ≠ 1`. -/
theorem allocator_invariant_counterexample :
    (applyActions (BlockAllocator.init Int 1 1 1)
          [AllocAction.free 0]).free_blocks.length
        + liveBlocks (applyActions (BlockAllocator.init Int 1 1 1)
          [AllocAction.free 0]) ≠ 1 := by
  decide

/-- Call-sequence discipline: every `free` targets a block currently
holding a positive ref count (the only usage the code performs —
`free_sequence` releases blocks its table allocated). -/
def GoodActions (a : BlockAllocator α) : List AllocAction → Prop
  | [] => True
  | AllocAction.alloc :: rest =>
    GoodActions (applyAction a AllocAction.alloc) rest
  | AllocAction.free b :: rest =>
    0 < a.ref_count b ∧ GoodActions (a.free b) rest

/-- Allocator well-formedness: the free stack has no duplicates and
holds exactly the in-range blocks with ref count 0; ref counts are at
most 1 (no `retain` exists in the code) and vanish out of range. -/
structure AllocWf (a : BlockAllocator α) : Prop where
  free_nodup : a.free_blocks.Nodup
  mem_free_iff : ∀ b, b ∈ a.free_blocks ↔ b < a.num_blocks ∧ a.ref_count b = 0
  ref_le_one : ∀ b, a.ref_count b ≤ 1
  ref_zero_of_ge : ∀ b, a.num_blocks ≤ b → a.ref_count b = 0

theorem allocWf_init (N B L : ℕ) : AllocWf (BlockAllocator.init α N B L) := by
  refine ⟨List.nodup_range N, fun b => ?_, fun b => Nat.zero_le 1, fun b _ => rfl⟩
  simp [BlockAllocator.init]

/-- Characterization of a successful `allocate`. -/
theorem allocate_eq {a : BlockAllocator α} {b : ℕ} {a2 : BlockAllocator α}
    (h : a.allocate = some (b, a2)) :
    a.free_blocks.getLast? = some b ∧
      a2 = { a with
        free_blocks := a.free_blocks.dropLast
        ref_count := fun i => if i = b then a.ref_count i + 1 else a.ref_count i } := by
  rw [BlockAllocator.allocate] at h
  cases hlast : a.free_blocks.getLast? with
  | none => rw [hlast] at h; exact absurd h (by simp)
  | some b0 =>
    rw [hlast] at h
    simp only [Option.some.injEq, Prod.mk.injEq] at h
    obtain ⟨h1, h2⟩ := h
    rw [← h1]
    exact ⟨rfl, h2.symm⟩

theorem allocWf_allocate {a : BlockAllocator α} (hwf : AllocWf a)
    {b : ℕ} {a2 : BlockAllocator α} (h : a.allocate = some (b, a2)) :
    AllocWf a2 ∧ a2.num_blocks = a.num_blocks := by
  obtain ⟨hlast, rfl⟩ := allocate_eq h
  have hne : a.free_blocks ≠ [] := by
    intro habs; rw [habs] at hlast; simp at hlast
  have hsplit : a.free_blocks.dropLast ++ [b] = a.free_blocks := by
    conv_rhs => rw [← List.dropLast_append_getLast hne]
    have hgl : a.free_blocks.getLast hne = b := by
      rw [List.getLast?_eq_getLast _ hne] at hlast
      exact Option.some.inj hlast
    rw [hgl]
  have hnodup2 : (a.free_blocks.dropLast ++ [b]).Nodup := by
    rw [hsplit]; exact hwf.free_nodup
  have hbnotin : b ∉ a.free_blocks.dropLast := by
    intro habs
    exact (List.nodup_append.mp hnodup2).2.2 habs (by simp)
  have hbmem : b ∈ a.free_blocks := by
    rw [← hsplit]; exact List.mem_append_right _ (by simp)
  have hbref : a.ref_count b = 0 := ((hwf.mem_free_iff b).mp hbmem).2
  have hbN : b < a.num_blocks := ((hwf.mem_free_iff b).mp hbmem).1
  refine ⟨⟨(List.nodup_append.mp hnodup2).1, fun x => ?_, fun x => ?_,
    fun x hx => ?_⟩, rfl⟩
  · dsimp only
    constructor
    · intro hxmem
      have hxfree : x ∈ a.free_blocks := by
        rw [← hsplit]; exact List.mem_append_left _ hxmem
      have hxb : x ≠ b := fun habs => hbnotin (habs ▸ hxmem)
      rw [if_neg hxb]
      exact (hwf.mem_free_iff x).mp hxfree
    · rintro ⟨hxN, hxref⟩
      by_cases hxb : x = b
      · subst hxb; rw [if_pos rfl] at hxref; omega
      · rw [if_neg hxb] at hxref
        have hxfree := (hwf.mem_free_iff x).mpr ⟨hxN, hxref⟩
        rw [← hsplit] at hxfree
        rcases List.mem_append.mp hxfree with hmem | hmem
        · exact hmem
        · exact absurd (List.mem_singleton.mp hmem) hxb
  · dsimp only
    by_cases hxb : x = b
    · subst hxb; rw [if_pos rfl, hbref]
    · rw [if_neg hxb]; exact hwf.ref_le_one x
  · dsimp only
    have hx2 : a.num_blocks ≤ x := hx
    have hxb : x ≠ b := by omega
    rw [if_neg hxb]
    exact hwf.ref_zero_of_ge x hx2

theorem allocWf_free {a : BlockAllocator α} (hwf : AllocWf a)
    {b : ℕ} (hb : 0 < a.ref_count b) :
    AllocWf (a.free b) ∧ (a.free b).num_blocks = a.num_blocks := by
  have href : a.ref_count b = 1 := le_antisymm (hwf.ref_le_one b) hb
  have hbN : b < a.num_blocks := by
    by_contra habs
    have := hwf.ref_zero_of_ge b (by omega)
    omega
  have hbnotfree : b ∉ a.free_blocks := by
    intro habs
    have := ((hwf.mem_free_iff b).mp habs).2
    omega
  have hzero : a.ref_count b - 1 = 0 := by omega
  refine ⟨⟨?_, fun x => ?_, fun x => ?_, fun x hx => ?_⟩, rfl⟩
  · show (if a.ref_count b - 1 = 0 then a.free_blocks ++ [b] else a.free_blocks).Nodup
    rw [if_pos hzero, List.nodup_append]
    exact ⟨hwf.free_nodup, List.nodup_singleton b,
      fun x hx hx2 => hbnotfree ((List.mem_singleton.mp hx2) ▸ hx)⟩
  · show x ∈ (if a.ref_count b - 1 = 0 then a.free_blocks ++ [b] else a.free_blocks)
      ↔ x < a.num_blocks ∧ (if x = b then a.ref_count b - 1 else a.ref_count x) = 0
    rw [if_pos hzero, List.mem_append, List.mem_singleton]
    by_cases hxb : x = b
    · subst hxb
      simp [hbN, hzero, hbnotfree]
    · rw [if_neg hxb]
      simp only [hxb, or_false]
      exact hwf.mem_free_iff x
  · show (if x = b then a.ref_count b - 1 else a.ref_count x) ≤ 1
    by_cases hxb : x = b
    · rw [if_pos hxb]; omega
    · rw [if_neg hxb]; exact hwf.ref_le_one x
  · show (if x = b then a.ref_count b - 1 else a.ref_count x) = 0
    have hx2 : a.num_blocks ≤ x := hx
    have hxb : x ≠ b := by omega
    rw [if_neg hxb]
    exact hwf.ref_zero_of_ge x hx2

theorem allocWf_run {acts : List AllocAction} :
    ∀ {a : BlockAllocator α}, AllocWf a → GoodActions a acts →
      AllocWf (applyActions a acts) ∧
        (applyActions a acts).num_blocks = a.num_blocks := by
  induction acts with
  | nil => intro a hwf _; exact ⟨hwf, rfl⟩
  | cons act rest ih =>
    intro a hwf hgood
    cases act with
    | alloc =>
      have hstep : AllocWf (applyAction a AllocAction.alloc) ∧
          (applyAction a AllocAction.alloc).num_blocks = a.num_blocks := by
        rw [applyAction]
        cases halloc : a.allocate with
        | none => exact ⟨hwf, rfl⟩
        | some p => exact allocWf_allocate hwf (by rw [halloc])
      have := ih hstep.1 hgood
      exact ⟨this.1, this.2.trans hstep.2⟩
    | free b =>
      obtain ⟨hb, hgood2⟩ := hgood
      have hstep := allocWf_free hwf hb
      have := ih hstep.1 hgood2
      exact ⟨this.1, this.2.trans hstep.2⟩

theorem allocWf_counts {a : BlockAllocator α} (hwf : AllocWf a) :
    a.free_blocks.length + liveBlocks a = a.num_blocks := by
  have hperm : a.free_blocks.length
      = ((List.range a.num_blocks).filter fun b => a.ref_count b == 0).length := by
    have h1 : a.free_blocks.toFinset
        = ((List.range a.num_blocks).filter fun b => a.ref_count b == 0).toFinset := by
      apply Finset.ext
      intro x
      simp only [List.mem_toFinset, List.mem_filter, List.mem_range, beq_iff_eq]
      exact hwf.mem_free_iff x
    have h2 := List.toFinset_card_of_nodup hwf.free_nodup
    have hnd : ((List.range a.num_blocks).filter fun b => a.ref_count b == 0).Nodup :=
      List.Nodup.filter _ (List.nodup_range a.num_blocks)
    have h3 := List.toFinset_card_of_nodup hnd
    rw [← h2, ← h3, h1]
  rw [liveBlocks, hperm, List.countP_eq_length_filter]
  have hsplit := List.length_eq_length_filter_add
    (l := List.range a.num_blocks) (fun b => a.ref_count b == 0)
  rw [List.length_range] at hsplit
  have hsame : (List.range a.num_blocks).filter (fun b => !(a.ref_count b == 0))
      = (List.range a.num_blocks).filter (fun b => a.ref_count b != 0) := by
    apply List.filter_congr
    intro x _
    simp [bne]
  rw [hsame] at hsplit
  omega

/-- C4 (amended): for every allocator state reached from construction
with `N` blocks by any sequence of allocate / free calls in which
every `free` targets a block with positive ref count (the usage
discipline of the cache — `release` of a never-allocated block is a
caller error per the allocator's contract), the size of the free stack
plus the number of blocks with `ref_count > 0` equals `N`; and once
every block's ref count is back to 0 (every lane freed), the free
stack again holds all `N` ids. Without the discipline the equality
fails (see the double-free counterexample). -/
theorem allocator_invariant (N B L : ℕ) (acts : List AllocAction)
    (hgood : GoodActions (BlockAllocator.init α N B L) acts) :
    (applyActions (BlockAllocator.init α N B L) acts).free_blocks.length
        + liveBlocks (applyActions (BlockAllocator.init α N B L) acts) = N ∧
    ((∀ b, (applyActions (BlockAllocator.init α N B L) acts).ref_count b = 0) →
      (applyActions (BlockAllocator.init α N B L) acts).free_blocks.length
        = N) := by
  obtain ⟨hwf, hN⟩ := allocWf_run (allocWf_init N B L) hgood
  have hcounts := allocWf_counts hwf
  rw [hN, show (BlockAllocator.init α N B L).num_blocks = N from rfl] at hcounts
  constructor
  · exact hcounts
  · intro hall
    have hlive : liveBlocks (applyActions (BlockAllocator.init α N B L) acts)
        = 0 := by
      rw [liveBlocks]
      apply List.countP_eq_zero.mpr
      intro b _
      simp [hall b]
    omega

/-- Witness for `allocator_invariant`: two blocks, one `allocate`
(which pops block 1) followed by a matching `free(1)`. -/
theorem allocator_invariant_witness :
    GoodActions (BlockAllocator.init Int 2 1 1)
        [AllocAction.alloc, AllocAction.free 1] ∧
    ((applyActions (BlockAllocator.init Int 2 1 1)
          [AllocAction.alloc, AllocAction.free 1]).free_blocks.length
        + liveBlocks (applyActions (BlockAllocator.init Int 2 1 1)
          [AllocAction.alloc, AllocAction.free 1]) = 2 ∧
      ((∀ b, (applyActions (BlockAllocator.init Int 2 1 1)
            [AllocAction.alloc, AllocAction.free 1]).ref_count b = 0) →
        (applyActions (BlockAllocator.init Int 2 1 1)
            [AllocAction.alloc, AllocAction.free 1]).free_blocks.length
          = 2)) := by
  have hgood : GoodActions (BlockAllocator.init Int 2 1 1)
      [AllocAction.alloc, AllocAction.free 1] :=
    ⟨by decide, trivial⟩
  exact ⟨hgood, allocator_invariant 2 1 1 _ hgood⟩

/-! ### C8: release order of `free_sequence` -/

/-- Modelled from the spec's words (§4.2): `drop()` releases every
block in its list in **reverse** order (last-appended first), then
forgets the id. Stated for comparison with the code's
`free_sequence`, which walks `table.block_ids` front to back. -/
def PagedKVCache.free_sequence_reverse_order (c : PagedKVCache α)
    (seq_id : ℕ) : PagedKVCache α :=
  match dictGet? c.sequences seq_id with
  | none => c
  | some t =>
    { c with
      allocator := t.block_ids.reverse.foldl BlockAllocator.free c.allocator
      sequences := dictErase c.sequences seq_id }

/-- C8 counterexample: on a fresh 2-block cache (block size 1, one
layer) the lane allocates block 1 up front and block 0 for its second
token, so `block_ids = [1, 0]`. The code's `free_sequence` pushes `1`
then `0` (free stack `[1, 0]`); releasing in reverse order would push
`0` then `1` (free stack `[0, 1]`). The two orders are observably
different, refuting the claimed reverse order. -/
theorem free_sequence_order_counterexample :
    ((PagedKVCache.init Int 2 1 1).allocate_sequence.map fun p =>
      (p.2.store_hf_cache id p.1 [([10, 20], [30, 40])] 0).map fun c =>
        ((c.free_sequence p.1).allocator.free_blocks,
         (c.free_sequence_reverse_order p.1).allocator.free_blocks))
      = some (some ([1, 0], [0, 1])) ∧
    ([1, 0] : List ℕ) ≠ [0, 1] := by
  constructor
  · decide
  · decide

theorem dictGet?_eq_none {β : Type} (l : List (ℕ × β)) (k : ℕ)
    (h : k ∉ l.map Prod.fst) : dictGet? l k = none := by
  induction l with
  | nil => rfl
  | cons kv rest ih =>
    rw [dictGet?]
    by_cases hk : kv.1 = k
    · exact absurd (by simp [← hk]) h
    · rw [if_neg hk]
      exact ih fun h2 => h (by simp [h2])

theorem dictGet?_erase_self {β : Type} (l : List (ℕ × β)) (k : ℕ)
    (hnodup : (l.map Prod.fst).Nodup) :
    dictGet? (dictErase l k) k = none := by
  induction l with
  | nil => rfl
  | cons kv rest ih =>
    obtain ⟨k1, v1⟩ := kv
    rw [dictErase]
    by_cases hk : k1 = k
    · rw [if_pos hk]
      subst hk
      exact dictGet?_eq_none rest k1 (by simpa using (List.nodup_cons.mp hnodup).1)
    · rw [if_neg hk, dictGet?, if_neg hk]
      exact ih (List.nodup_cons.mp hnodup).2

/-- Folding `free` over pairwise-distinct blocks all held at
`ref_count = 1` appends them to the free stack in traversal order,
zeroes their counts and touches no other count. -/
theorem foldl_free_all_ones (bids : List ℕ) :
    ∀ a : BlockAllocator α, bids.Nodup →
      (∀ b ∈ bids, a.ref_count b = 1) →
      (bids.foldl BlockAllocator.free a).free_blocks
          = a.free_blocks ++ bids ∧
        (∀ b ∈ bids, (bids.foldl BlockAllocator.free a).ref_count b = 0) ∧
        (∀ x, x ∉ bids →
          (bids.foldl BlockAllocator.free a).ref_count x = a.ref_count x) := by
  induction bids with
  | nil => intro a _ _; exact ⟨by simp, by simp, fun x _ => rfl⟩
  | cons b bids ih =>
    intro a hnodup hones
    have hb1 : a.ref_count b = 1 := hones b (by simp)
    have hfree : (a.free b).free_blocks = a.free_blocks ++ [b] := by
      rw [BlockAllocator.free]
      dsimp only
      rw [hb1]
      simp
    have hrefb : (a.free b).ref_count b = 0 := by
      rw [BlockAllocator.free]
      dsimp only
      rw [if_pos rfl, hb1]
    have hrefx : ∀ x, x ≠ b → (a.free b).ref_count x = a.ref_count x := by
      intro x hx
      rw [BlockAllocator.free]
      dsimp only
      rw [if_neg hx]
    have hbnotin : b ∉ bids := (List.nodup_cons.mp hnodup).1
    have hones2 : ∀ x ∈ bids, (a.free b).ref_count x = 1 := by
      intro x hx
      have hxb : x ≠ b := fun habs => hbnotin (habs ▸ hx)
      rw [hrefx x hxb]
      exact hones x (List.mem_cons_of_mem b hx)
    obtain ⟨ih1, ih2, ih3⟩ := ih (a.free b) (List.nodup_cons.mp hnodup).2 hones2
    refine ⟨?_, ?_, ?_⟩
    · rw [List.foldl_cons, ih1, hfree, List.append_assoc, List.singleton_append]
    · intro x hx
      rcases List.mem_cons.mp hx with rfl | hx2
      · rw [List.foldl_cons, ih3 x hbnotin, hrefb]
      · rw [List.foldl_cons]
        exact ih2 x hx2
    · intro x hx
      have hxb : x ≠ b := fun habs => hx (habs ▸ List.mem_cons_self b bids)
      have hxbids : x ∉ bids := fun habs => hx (List.mem_cons_of_mem b habs)
      rw [List.foldl_cons, ih3 x hxbids, hrefx x hxb]

/-- C8 (amended): `free_sequence` releases every block in the page
table's list in **forward** order (first-appended block released
first) — with each listed block held at `ref_count = 1`, as in a
lane's normal lifecycle, the ids are appended to the free stack in
exactly `block_ids` order, every listed block ends free — and
afterwards the lane id is forgotten. -/
theorem free_sequence_forward_order (c : PagedKVCache α) (sid : ℕ)
    (t : SequenceBlockTable) (ht : dictGet? c.sequences sid = some t)
    (hkeys : (c.sequences.map Prod.fst).Nodup)
    (hnodup : t.block_ids.Nodup)
    (href : ∀ b ∈ t.block_ids, c.allocator.ref_count b = 1) :
    (c.free_sequence sid).allocator.free_blocks
        = c.allocator.free_blocks ++ t.block_ids ∧
    (∀ b ∈ t.block_ids, (c.free_sequence sid).allocator.ref_count b = 0) ∧
    dictGet? (c.free_sequence sid).sequences sid = none := by
  obtain ⟨h1, h2, _⟩ := foldl_free_all_ones t.block_ids c.allocator hnodup href
  rw [PagedKVCache.free_sequence, ht]
  exact ⟨h1, h2, dictGet?_erase_self c.sequences sid hkeys⟩

/-- Witness for `free_sequence_forward_order` at a concrete cache: one
lane `0` with `block_ids = [1, 0]`, both blocks at ref count 1, empty
free stack. -/
theorem free_sequence_forward_order_witness :
    (dictGet? ([(0, (⟨[1, 0], 1, 2⟩ : SequenceBlockTable))]) 0
        = some (⟨[1, 0], 1, 2⟩ : SequenceBlockTable)) ∧
    (([(0, (⟨[1, 0], 1, 2⟩ : SequenceBlockTable))].map Prod.fst).Nodup) ∧
    (([1, 0] : List ℕ).Nodup) ∧
    ((PagedKVCache.mk 1
        ⟨2, 1, 1, (fun i => if i ≤ 1 then 1 else 0), [],
          fun _ _ _ => ((0 : Int), 0)⟩
        [(0, ⟨[1, 0], 1, 2⟩)] 1).free_sequence 0).allocator.free_blocks
      = [] ++ [1, 0] := by
  refine ⟨by decide, by decide, by decide, ?_⟩
  exact (free_sequence_forward_order
    (PagedKVCache.mk 1
      ⟨2, 1, 1, (fun i => if i ≤ 1 then 1 else 0), [],
        fun _ _ _ => ((0 : Int), 0)⟩
      [(0, ⟨[1, 0], 1, 2⟩)] 1) 0 ⟨[1, 0], 1, 2⟩
    (by decide) (by decide) (by decide) (by decide)).1

/-! ### C10: emit is read-only -/

/-- C10: `get_hf_cache` run as a state transformer leaves the cache
untouched — the lane's table (hence `get_cached_length`), the
allocator's free stack, ref counts and pool storage are all unchanged,
and two consecutive emits on an unchanged lane return equal caches. -/
theorem emit_read_only (c : PagedKVCache α) (sid : ℕ) :
    (c.get_hf_cache_op sid).2 = c ∧
    dictGet? (c.get_hf_cache_op sid).2.sequences sid
      = dictGet? c.sequences sid ∧
    (c.get_hf_cache_op sid).2.allocator.free_blocks
      = c.allocator.free_blocks ∧
    (∀ b, (c.get_hf_cache_op sid).2.allocator.ref_count b
      = c.allocator.ref_count b) ∧
    (∀ b l off, (c.get_hf_cache_op sid).2.allocator.storage b l off
      = c.allocator.storage b l off) ∧
    (c.get_hf_cache_op sid).2.get_cached_length sid
      = c.get_cached_length sid ∧
    ((c.get_hf_cache_op sid).2.get_hf_cache_op sid).1
      = (c.get_hf_cache_op sid).1 :=
  ⟨rfl, rfl, rfl, fun _ => rfl, fun _ _ _ => rfl, rfl, rfl⟩

/-! ### C3: cache round-trip -/

/-- The page-table length after storing `n` tokens: one block from
`allocate_sequence`, then one per started block — `⌈n / B⌉`, at
least 1. -/
def expectedLen (B n : ℕ) : ℕ := if n = 0 then 1 else (n + (B - 1)) / B

theorem expectedLen_zero (B : ℕ) : expectedLen B 0 = 1 := by
  rw [expectedLen, if_pos rfl]

theorem expectedLen_one {B : ℕ} (hB : 0 < B) : expectedLen B 1 = 1 := by
  rw [expectedLen, if_neg one_ne_zero]
  have h1 : 1 + (B - 1) = B := by omega
  rw [h1, Nat.div_self hB]

theorem expectedLen_succ_of_mod_ne {B n : ℕ} (hB : 0 < B)
    (h : n % B ≠ 0) : expectedLen B (n + 1) = expectedLen B n := by
  have hn : n ≠ 0 := by
    intro habs; rw [habs, Nat.zero_mod] at h; exact h rfl
  rw [expectedLen, expectedLen, if_neg (by omega), if_neg hn]
  have hdm := Nat.div_add_mod n B
  have hmlt := Nat.mod_lt n hB
  have hmul : B * (n / B + 1) = B * (n / B) + B := by ring
  have h1 : n + 1 + (B - 1) = B * (n / B + 1) + n % B := by omega
  have h2 : n + (B - 1) = B * (n / B + 1) + (n % B - 1) := by omega
  have e1 : n % B / B = 0 := Nat.div_eq_of_lt hmlt
  have e2 : (n % B - 1) / B = 0 := Nat.div_eq_of_lt (by omega)
  rw [h1, h2, Nat.mul_add_div hB, Nat.mul_add_div hB, e1, e2]

theorem expectedLen_succ_of_mod_eq {B n : ℕ} (hB : 0 < B)
    (h : n % B = 0) (h0 : 0 < n) :
    expectedLen B (n + 1) = expectedLen B n + 1 := by
  rw [expectedLen, expectedLen, if_neg (by omega), if_neg (by omega)]
  have hdvd : B ∣ n := Nat.dvd_of_mod_eq_zero h
  have hq : B * (n / B) = n := Nat.mul_div_cancel' hdvd
  have h1 : n + 1 + (B - 1) = n + B := by omega
  have h2 : n + (B - 1) = B * (n / B) + (B - 1) := by omega
  have e1 : (B - 1) / B = 0 := Nat.div_eq_of_lt (by omega)
  rw [h1, Nat.add_div_right n hB, h2, Nat.mul_add_div hB, e1]

theorem expectedLen_eq_div_of_mod_eq {B n : ℕ} (hB : 0 < B)
    (h : n % B = 0) (h0 : 0 < n) : expectedLen B n = n / B := by
  rw [expectedLen, if_neg (by omega)]
  have hdvd : B ∣ n := Nat.dvd_of_mod_eq_zero h
  have hq : B * (n / B) = n := Nat.mul_div_cancel' hdvd
  have h2 : n + (B - 1) = B * (n / B) + (B - 1) := by omega
  have e1 : (B - 1) / B = 0 := Nat.div_eq_of_lt (by omega)
  rw [h2, Nat.mul_add_div hB, e1]
  omega

theorem div_lt_expectedLen_of_not_full {B n : ℕ} (hB : 0 < B)
    (h : n = 0 ∨ n % B ≠ 0) : n / B < expectedLen B n := by
  rcases h with rfl | h
  · rw [Nat.zero_div, expectedLen, if_pos rfl]; omega
  · have hn : n ≠ 0 := by
      intro habs; rw [habs, Nat.zero_mod] at h; exact h rfl
    rw [expectedLen, if_neg hn]
    have hdm := Nat.div_add_mod n B
    have hmlt := Nat.mod_lt n hB
    have hmul : B * (n / B + 1) = B * (n / B) + B := by ring
    have h2 : n + (B - 1) = B * (n / B + 1) + (n % B - 1) := by omega
    have e1 : (n % B - 1) / B = 0 := by
      have := Nat.mod_lt n hB
      exact Nat.div_eq_of_lt (by omega)
    rw [h2, Nat.mul_add_div hB, e1]
    omega

theorem le_expectedLen_mul {B : ℕ} (hB : 0 < B) (n : ℕ) :
    n ≤ expectedLen B n * B := by
  by_cases hn : n = 0
  · subst hn; exact Nat.zero_le _
  · rw [expectedLen, if_neg hn]
    have hdm := Nat.div_add_mod (n + (B - 1)) B
    have hmlt := Nat.mod_lt (n + (B - 1)) hB
    have hcomm : (n + (B - 1)) / B * B = B * ((n + (B - 1)) / B) :=
      Nat.mul_comm _ _
    rw [hcomm]
    omega

theorem div_lt_expectedLen_of_lt {B p n : ℕ} (hB : 0 < B) (h : p < n) :
    p / B < expectedLen B n :=
  (Nat.div_lt_iff_lt_mul hB).mpr (Nat.lt_of_lt_of_le h (le_expectedLen_mul hB n))

/-- The per-layer stored pairs for input position `pos` of `pkv`:
layer `l` stores the converted K and V elements. -/
def rowOf (conv : α → α) (pkv : List (List α × List α)) (pos : ℕ) :
    List (α × α) :=
  pkv.map fun kv => (conv (kv.1.getD pos default), conv (kv.2.getD pos default))

/-- Invariant tying an allocator and one lane's table to the lane's
logical content (one per-layer row per stored position). -/
structure CacheInv (B L : ℕ) (a : BlockAllocator α) (t : SequenceBlockTable)
    (content : List (List (α × α))) : Prop where
  hB : 0 < B
  haB : a.block_size = B
  haL : a.num_layers = L
  htB : t.block_size = B
  hnum : t.num_tokens = content.length
  hlen : t.block_ids.length = expectedLen B t.num_tokens
  hnodup : t.block_ids.Nodup
  hfreeNodup : a.free_blocks.Nodup
  hdisj : ∀ b ∈ t.block_ids, b ∉ a.free_blocks
  hcontent : ∀ p, p < content.length → ∀ l, l < L →
    a.storage (t.block_ids.getD (p / B) 0) l (p % B)
      = (content.getD p []).getD l (default, default)

/-- Decomposition of a successful `allocate`: the popped block is the
free stack's last element and everything but the free stack and its
ref count is unchanged. -/
theorem allocate_split {a : BlockAllocator α} {b : ℕ} {a2 : BlockAllocator α}
    (h : a.allocate = some (b, a2)) :
    a.free_blocks = a.free_blocks.dropLast ++ [b] ∧
    a2.free_blocks = a.free_blocks.dropLast ∧
    a2.storage = a.storage ∧ a2.block_size = a.block_size ∧
    a2.num_layers = a.num_layers := by
  obtain ⟨hlast, rfl⟩ := allocate_eq h
  have hne : a.free_blocks ≠ [] := by
    intro habs; rw [habs] at hlast; simp at hlast
  have hsplit : a.free_blocks = a.free_blocks.dropLast ++ [b] := by
    conv_lhs => rw [← List.dropLast_append_getLast hne]
    have hgl : a.free_blocks.getLast hne = b := by
      rw [List.getLast?_eq_getLast _ hne] at hlast
      exact Option.some.inj hlast
    rw [hgl]
  exact ⟨hsplit, rfl, rfl, rfl, rfl⟩

/-- Writing one position at the current `num_tokens` slot preserves the
invariant, extending the content by the position's row. Stated for a
state whose table already has room for the new token (`hlen`, `hidx`:
the post-allocation state of `maybeNewBlock`). -/
theorem writeStep_inv {conv : α → α} {B L : ℕ} {a : BlockAllocator α}
    {t : SequenceBlockTable} {content : List (List (α × α))}
    {pkv : List (List α × List α)} {pos : ℕ}
    (hB : 0 < B) (haB : a.block_size = B) (haL : a.num_layers = L)
    (htB : t.block_size = B) (hnum : t.num_tokens = content.length)
    (hlen : t.block_ids.length = expectedLen B (t.num_tokens + 1))
    (hnodup : t.block_ids.Nodup) (hfreeNodup : a.free_blocks.Nodup)
    (hdisj : ∀ b ∈ t.block_ids, b ∉ a.free_blocks)
    (hpkv : pkv.length = L)
    (hidx : t.num_tokens / B < t.block_ids.length)
    (hcontent : ∀ p, p < content.length → ∀ l, l < L →
      a.storage (t.block_ids.getD (p / B) 0) l (p % B)
        = (content.getD p []).getD l (default, default)) :
    CacheInv B L
      { a with
          storage :=
            writeToken conv a.storage (t.get_physical_location t.num_tokens).1
              (t.get_physical_location t.num_tokens).2 pkv pos }
      t.append_token (content ++ [rowOf conv pkv pos]) := by
  have hloc : t.get_physical_location t.num_tokens
      = (t.block_ids.getD (t.num_tokens / B) 0, t.num_tokens % B) := by
    rw [SequenceBlockTable.get_physical_location, htB]
  rw [hloc]
  refine ⟨hB, haB, haL, htB, ?_, ?_, hnodup, hfreeNodup, hdisj, ?_⟩
  · show t.num_tokens + 1 = (content ++ [rowOf conv pkv pos]).length
    simp [hnum]
  · show t.block_ids.length = expectedLen B (t.num_tokens + 1)
    exact hlen
  · intro p hp l hl
    show writeToken conv a.storage (t.block_ids.getD (t.num_tokens / B) 0)
        (t.num_tokens % B) pkv pos (t.block_ids.getD (p / B) 0) l (p % B)
      = ((content ++ [rowOf conv pkv pos]).getD p []).getD l (default, default)
    rw [List.length_append, List.length_singleton] at hp
    by_cases hplt : p < content.length
    · have hpdivlt : p / B < t.block_ids.length :=
        Nat.lt_of_le_of_lt (Nat.div_le_div_right (by omega)) hidx
      have hcondfalse : ¬ (t.block_ids.getD (p / B) 0
          = t.block_ids.getD (t.num_tokens / B) 0 ∧ p % B = t.num_tokens % B) := by
        rintro ⟨hbeq, hoeq⟩
        rw [List.getD_eq_getElem _ 0 hpdivlt, List.getD_eq_getElem _ 0 hidx]
          at hbeq
        have hdiveq : p / B = t.num_tokens / B :=
          (List.Nodup.getElem_inj_iff hnodup).mp hbeq
        have hp2 := Nat.div_add_mod p B
        have hn2 := Nat.div_add_mod t.num_tokens B
        rw [hdiveq, hoeq] at hp2
        omega
      rw [writeToken]
      rw [if_neg hcondfalse, hcontent p hplt l hl,
        List.getD_append _ _ _ _ hplt]
    · have hpeq : p = content.length := by omega
      subst hpeq
      rw [writeToken]
      rw [if_pos (by rw [hnum]; exact ⟨rfl, rfl⟩)]
      have hlpkv : l < pkv.length := by omega
      have hget : pkv.get? l = some pkv[l] := by
        rw [List.get?_eq_getElem?, List.getElem?_eq_getElem hlpkv]
      rw [hget]
      have hrow : (content ++ [rowOf conv pkv pos]).getD content.length []
          = rowOf conv pkv pos := by
        rw [List.getD_append_right _ _ _ _ (Nat.le_refl _), Nat.sub_self]
        rfl
      rw [hrow, rowOf]
      have hlmap : l < (pkv.map fun kv =>
          (conv (kv.1.getD pos default), conv (kv.2.getD pos default))).length := by
        rw [List.length_map]; omega
      rw [List.getD_eq_getElem _ _ hlmap, List.getElem_map]

/-- One `storeToken` call preserves the invariant. -/
theorem storeToken_inv {conv : α → α} {B L : ℕ} {a : BlockAllocator α}
    {t : SequenceBlockTable} {content : List (List (α × α))}
    {pkv : List (List α × List α)} {pos : ℕ}
    {a2 : BlockAllocator α} {t2 : SequenceBlockTable}
    (inv : CacheInv B L a t content) (hpkv : pkv.length = L)
    (hstep : storeToken conv pkv pos a t = some (a2, t2)) :
    CacheInv B L a2 t2 (content ++ [rowOf conv pkv pos]) := by
  cases hmb : maybeNewBlock a t with
  | none => rw [storeToken, hmb] at hstep; exact absurd hstep (by simp)
  | some mid =>
    obtain ⟨amid, tmid⟩ := mid
    rw [storeToken, hmb] at hstep
    simp only [Option.some.injEq, Prod.mk.injEq] at hstep
    obtain ⟨ha2, ht2⟩ := hstep
    subst ha2 ht2
    rw [maybeNewBlock] at hmb
    by_cases hcond : t.needs_new_block ∧ 0 < t.num_tokens
    · rw [if_pos hcond] at hmb
      cases halloc : a.allocate with
      | none => rw [halloc] at hmb; exact absurd hmb (by simp)
      | some pr =>
        obtain ⟨b, a3⟩ := pr
        rw [halloc] at hmb
        simp only [Option.some.injEq, Prod.mk.injEq] at hmb
        obtain ⟨ha3, ht3⟩ := hmb
        subst ha3 ht3
        obtain ⟨hsplit, hfree3, hstor3, hsize3, hlay3⟩ := allocate_split halloc
        have hmodeq : t.num_tokens % B = 0 := by
          have := hcond.1
          rwa [SequenceBlockTable.needs_new_block, inv.htB] at this
        have hbfree : b ∈ a.free_blocks := by
          rw [hsplit]; exact List.mem_append_right _ (by simp)
        have hbnotin : b ∉ t.block_ids := fun habs => inv.hdisj b habs hbfree
        have hbnotdrop : b ∉ a.free_blocks.dropLast := by
          intro habs
          have hnd : (a.free_blocks.dropLast ++ [b]).Nodup := by
            rw [← hsplit]; exact inv.hfreeNodup
          exact (List.nodup_append.mp hnd).2.2 habs (by simp)
        have hlenold : t.block_ids.length = t.num_tokens / B := by
          rw [inv.hlen, expectedLen_eq_div_of_mod_eq inv.hB hmodeq hcond.2]
        have hgetold : ∀ p, p < t.num_tokens →
            (t.add_block b).block_ids.getD (p / B) 0
              = t.block_ids.getD (p / B) 0 := by
          intro p hp
          show (t.block_ids ++ [b]).getD (p / B) 0 = t.block_ids.getD (p / B) 0
          apply List.getD_append
          rw [hlenold]
          exact Nat.div_lt_div_of_lt_of_dvd (Nat.dvd_of_mod_eq_zero hmodeq) hp
        refine writeStep_inv inv.hB (hsize3.trans inv.haB) (hlay3.trans inv.haL)
          inv.htB inv.hnum ?_ ?_ ?_ ?_ hpkv ?_ ?_
        · show (t.block_ids ++ [b]).length = expectedLen B (t.num_tokens + 1)
          rw [List.length_append, List.length_singleton, inv.hlen,
            expectedLen_succ_of_mod_eq inv.hB hmodeq hcond.2]
        · show (t.block_ids ++ [b]).Nodup
          rw [List.nodup_append]
          exact ⟨inv.hnodup, List.nodup_singleton b,
            fun x hx hx2 => hbnotin ((List.mem_singleton.mp hx2) ▸ hx)⟩
        · rw [hfree3]
          exact List.Nodup.sublist (List.dropLast_sublist _) inv.hfreeNodup
        · intro x hx
          rw [hfree3]
          rcases List.mem_append.mp hx with hx2 | hx2
          · intro habs
            exact inv.hdisj x hx2 ((List.dropLast_sublist _).subset habs)
          · rw [List.mem_singleton.mp hx2]
            exact hbnotdrop
        · show t.num_tokens / B < (t.block_ids ++ [b]).length
          rw [List.length_append, List.length_singleton, hlenold]
          omega
        · intro p hp l hl
          rw [hstor3, hgetold p (by rw [inv.hnum]; exact hp)]
          exact inv.hcontent p hp l hl
    · rw [if_neg hcond] at hmb
      simp only [Option.some.injEq, Prod.mk.injEq] at hmb
      obtain ⟨ha3, ht3⟩ := hmb
      subst ha3 ht3
      have hnotfull : t.num_tokens = 0 ∨ t.num_tokens % B ≠ 0 := by
        by_cases h0 : t.num_tokens = 0
        · exact Or.inl h0
        · refine Or.inr fun habs => hcond ⟨?_, by omega⟩
          rw [SequenceBlockTable.needs_new_block, inv.htB]
          exact habs
      refine writeStep_inv inv.hB inv.haB inv.haL inv.htB inv.hnum ?_
        inv.hnodup inv.hfreeNodup inv.hdisj hpkv ?_ inv.hcontent
      · rw [inv.hlen]
        rcases hnotfull with h0 | hne
        · rw [h0, expectedLen_zero, expectedLen_one inv.hB]
        · exact (expectedLen_succ_of_mod_ne inv.hB hne).symm
      · rw [inv.hlen]
        exact div_lt_expectedLen_of_not_full inv.hB hnotfull

/-- The position loop preserves the invariant, appending one row per
stored position. -/
theorem storeLoop_inv {conv : α → α} {B L : ℕ}
    {pkv : List (List α × List α)} (hpkv : pkv.length = L)
    (positions : List ℕ) :
    ∀ {a : BlockAllocator α} {t : SequenceBlockTable}
      {content : List (List (α × α))} {a2 : BlockAllocator α}
      {t2 : SequenceBlockTable},
      CacheInv B L a t content →
      storeLoop conv pkv positions a t = some (a2, t2) →
      CacheInv B L a2 t2 (content ++ positions.map (rowOf conv pkv)) := by
  induction positions with
  | nil =>
    intro a t content a2 t2 inv h
    rw [storeLoop] at h
    simp only [Option.some.injEq, Prod.mk.injEq] at h
    obtain ⟨rfl, rfl⟩ := h
    simpa using inv
  | cons pos rest ih =>
    intro a t content a2 t2 inv h
    rw [storeLoop] at h
    cases hstep : storeToken conv pkv pos a t with
    | none => rw [hstep] at h; exact absurd h (by simp)
    | some mid =>
      obtain ⟨am, tm⟩ := mid
      rw [hstep] at h
      have hmid := storeToken_inv inv hpkv hstep
      have hrec := ih hmid h
      simpa [List.append_assoc] using hrec

/-- Cache-level invariant for one lane. -/
def CacheWf (B L : ℕ) (c : PagedKVCache α) (sid : ℕ)
    (content : List (List (α × α))) : Prop :=
  c.block_size = B ∧
  ∃ t, dictGet? c.sequences sid = some t ∧ CacheInv B L c.allocator t content

theorem dictGet?_set_self {β : Type} (l : List (ℕ × β)) (k : ℕ) (v : β) :
    dictGet? (dictSet l k v) k = some v := by
  induction l with
  | nil => rw [dictSet, dictGet?, if_pos rfl]
  | cons kv rest ih =>
    obtain ⟨k1, v1⟩ := kv
    rw [dictSet]
    by_cases hk : k1 = k
    · rw [if_pos hk, dictGet?, if_pos hk]
    · rw [if_neg hk, dictGet?, if_neg hk]
      exact ih

/-- One `store_hf_cache` call preserves the lane invariant, appending
the rows of the ingested slice `[start_pos, seq_len)`. -/
theorem store_hf_cache_wf {conv : α → α} {B L : ℕ} {c : PagedKVCache α}
    {sid : ℕ} {content : List (List (α × α))}
    {pkv : List (List α × List α)} {s : ℕ} {c2 : PagedKVCache α}
    (hwf : CacheWf B L c sid content) (hpkv : pkv.length = L)
    (hstore : c.store_hf_cache conv sid pkv s = some c2) :
    CacheWf B L c2 sid (content ++
      (List.range' s (hfSeqLen pkv - s)).map (rowOf conv pkv)) := by
  obtain ⟨hcB, t, ht, inv⟩ := hwf
  simp only [PagedKVCache.store_hf_cache, ht] at hstore
  by_cases hempty : pkv.length = 0
  · rw [if_pos hempty] at hstore
    simp only [Option.some.injEq] at hstore
    subst hstore
    have hnil : pkv = [] := List.length_eq_zero.mp hempty
    have hT : hfSeqLen pkv = 0 := by rw [hnil]; rfl
    rw [hT]
    simpa using ⟨hcB, t, ht, inv⟩
  · rw [if_neg hempty] at hstore
    cases hloop : storeLoop conv pkv
        (List.range' s (hfSeqLen pkv - s)) c.allocator t with
    | none => rw [hloop] at hstore; exact absurd hstore (by simp)
    | some pr =>
      obtain ⟨a2, t2⟩ := pr
      rw [hloop] at hstore
      simp only [Option.some.injEq] at hstore
      subst hstore
      exact ⟨hcB, t2, dictGet?_set_self c.sequences sid t2,
        storeLoop_inv hpkv _ inv hloop⟩

/-- The per-layer rows of one call's ingested slice. -/
def callRows (conv : α → α) (pr : List (List α × List α) × ℕ) :
    List (List (α × α)) :=
  (List.range' pr.2 (hfSeqLen pr.1 - pr.2)).map (rowOf conv pr.1)

theorem storeCalls_wf {conv : α → α} {B L : ℕ}
    (calls : List (List (List α × List α) × ℕ)) :
    ∀ {c : PagedKVCache α} {sid : ℕ} {content : List (List (α × α))}
      {c2 : PagedKVCache α},
      CacheWf B L c sid content →
      (∀ pr ∈ calls, pr.1.length = L) →
      storeCalls conv calls c sid = some c2 →
      CacheWf B L c2 sid (content ++ (calls.map (callRows conv)).flatten) := by
  induction calls with
  | nil =>
    intro c sid content c2 hwf _ h
    rw [storeCalls] at h
    simp only [Option.some.injEq] at h
    subst h
    simpa using hwf
  | cons pr calls ih =>
    intro c sid content c2 hwf hlen h
    obtain ⟨pkv, s⟩ := pr
    rw [storeCalls] at h
    cases hstep : c.store_hf_cache conv sid pkv s with
    | none => rw [hstep] at h; exact absurd h (by simp)
    | some cmid =>
      rw [hstep] at h
      have hmid := store_hf_cache_wf hwf (hlen (pkv, s) (by simp)) hstep
      have hrec := ih hmid (fun q hq => hlen q (List.mem_cons_of_mem _ hq)) h
      simpa [callRows, List.append_assoc] using hrec

/-- Recursive form of the per-layer gather: each block contributes its
first `min B num` rows, with `num` decreasing by `B` per block. -/
def gatherRec {β : Type} (g : ℕ → ℕ → β) (B : ℕ) : List ℕ → ℕ → List β
  | [], _ => []
  | bid :: bids, num =>
    (List.range (min B num)).map (g bid) ++ gatherRec g B bids (num - B)

theorem tokensInBlock_eq (B num i : ℕ) :
    tokensInBlock B num i = min B (num - i * B) := by
  rw [tokensInBlock]; omega

theorem gatherRec_zero {β : Type} (g : ℕ → ℕ → β) (B : ℕ) (bids : List ℕ) :
    gatherRec g B bids 0 = [] := by
  induction bids with
  | nil => rfl
  | cons bid bids ih => rw [gatherRec]; simp [ih]

theorem flatten_enumFrom_eq_gatherRec {β : Type} (g : ℕ → ℕ → β) (B : ℕ)
    (bids : List ℕ) :
    ∀ k num, ((List.enumFrom k bids).map fun p =>
        (List.range (tokensInBlock B num p.1)).map fun off => g p.2 off).flatten
      = gatherRec g B bids (num - k * B) := by
  induction bids with
  | nil => intro k num; rfl
  | cons bid bids ih =>
    intro k num
    rw [List.enumFrom_cons]
    simp only [List.map_cons, List.flatten_cons]
    rw [ih (k + 1) num, gatherRec]
    congr 1
    · rw [tokensInBlock_eq]
    · congr 1
      have hmul : (k + 1) * B = k * B + B := by ring
      omega

theorem gatherLayer_eq_gatherRec (st : ℕ → ℕ → ℕ → α × α)
    (t : SequenceBlockTable) (B l : ℕ) :
    gatherLayer st t B l
      = gatherRec (fun bid off => st bid l off) B t.block_ids t.num_tokens := by
  rw [gatherLayer]
  have h := flatten_enumFrom_eq_gatherRec (fun bid off => st bid l off) B
    t.block_ids 0 t.num_tokens
  simpa using h

theorem gatherRec_eq_range {β : Type} {g : ℕ → ℕ → β} {B : ℕ} (hB : 0 < B)
    (bids : List ℕ) :
    ∀ num, num ≤ bids.length * B →
      gatherRec g B bids num
        = (List.range num).map fun p => g (bids.getD (p / B) 0) (p % B) := by
  induction bids with
  | nil =>
    intro num hnum
    simp only [List.length_nil, Nat.zero_mul, Nat.le_zero] at hnum
    subst hnum
    rfl
  | cons bid bids ih =>
    intro num hnum
    rw [gatherRec]
    by_cases hle : num ≤ B
    · have hmin : min B num = num := by omega
      have hsub : num - B = 0 := by omega
      rw [hmin, hsub, gatherRec_zero, List.append_nil]
      apply List.map_congr_left
      intro p hp
      rw [List.mem_range] at hp
      have hpB : p < B := by omega
      rw [Nat.div_eq_of_lt hpB, Nat.mod_eq_of_lt hpB]
      rfl
    · have hmin : min B num = B := by omega
      have hsplitn : num = B + (num - B) := by omega
      have hbound : num - B ≤ bids.length * B := by
        have hmul : (bids.length + 1) * B = bids.length * B + B := by ring
        rw [List.length_cons, hmul] at hnum
        omega
      rw [hmin, ih (num - B) hbound]
      conv_rhs => rw [hsplitn, List.range_add]
      rw [List.map_append, List.map_map]
      congr 1
      · apply List.map_congr_left
        intro p hp
        rw [List.mem_range] at hp
        rw [Nat.div_eq_of_lt hp, Nat.mod_eq_of_lt hp]
        rfl
      · apply List.map_congr_left
        intro p _
        show g (bids.getD (p / B) 0) (p % B)
          = g ((bid :: bids).getD ((B + p) / B) 0) ((B + p) % B)
        have hdiv : (B + p) / B = p / B + 1 := by
          rw [Nat.add_comm B p, Nat.add_div_right p hB]
        have hmod : (B + p) % B = p % B := Nat.add_mod_left B p
        rw [hdiv, hmod, List.getD_cons_succ]

/-- Under the invariant, the per-layer gather returns exactly the
stored rows' layer-`l` entries, in position order. -/
theorem gather_content {B L : ℕ} {a : BlockAllocator α}
    {t : SequenceBlockTable} {content : List (List (α × α))}
    (inv : CacheInv B L a t content) (l : ℕ) (hl : l < L) :
    gatherLayer a.storage t B l
      = content.map fun row => row.getD l (default, default) := by
  have hbound : t.num_tokens ≤ t.block_ids.length * B := by
    rw [inv.hlen]
    exact le_expectedLen_mul inv.hB t.num_tokens
  rw [gatherLayer_eq_gatherRec, gatherRec_eq_range inv.hB t.block_ids
    t.num_tokens hbound]
  apply List.ext_getElem
  · simp [inv.hnum]
  · intro p h1 h2
    rw [List.getElem_map, List.getElem_map, List.getElem_range]
    have hp : p < content.length := by
      simpa using h2
    have hc := inv.hcontent p hp l hl
    rw [List.getD_eq_getElem content [] hp] at hc
    exact hc

/-- Under the lane invariant with at least one stored token, `emit`
returns, per layer `l < L`, the stored rows' K and V entries in
position order. -/
theorem get_hf_cache_of_wf {B L : ℕ} {c : PagedKVCache α} {sid : ℕ}
    {content : List (List (α × α))}
    (hwf : CacheWf B L c sid content) (hpos : 0 < content.length) :
    c.get_hf_cache sid = some ((List.range L).map fun l =>
      (content.map fun row => (row.getD l (default, default)).1,
       content.map fun row => (row.getD l (default, default)).2)) := by
  obtain ⟨hcB, t, ht, inv⟩ := hwf
  simp only [PagedKVCache.get_hf_cache, ht]
  rw [if_neg (by rw [inv.hnum]; omega)]
  congr 1
  rw [inv.haL]
  apply List.map_congr_left
  intro l hl
  rw [List.mem_range] at hl
  rw [hcB, gather_content inv l hl, List.map_map, List.map_map]
  exact Prod.ext rfl rfl

theorem allocate_sequence_wf {N B L : ℕ} (hB : 0 < B) {sid : ℕ}
    {c1 : PagedKVCache α}
    (h : (PagedKVCache.init α N B L).allocate_sequence = some (sid, c1)) :
    CacheWf B L c1 sid [] := by
  rw [PagedKVCache.allocate_sequence] at h
  cases halloc : (PagedKVCache.init α N B L).allocator.allocate with
  | none => rw [halloc] at h; exact absurd h (by simp)
  | some pr =>
    obtain ⟨b, a⟩ := pr
    rw [halloc] at h
    simp only [Option.some.injEq, Prod.mk.injEq] at h
    obtain ⟨hsid, hc1⟩ := h
    obtain ⟨hsplit, hfree, hstor, hsize, hlay⟩ := allocate_split halloc
    subst hsid
    subst hc1
    refine ⟨rfl, ⟨[] ++ [b], (PagedKVCache.init α N B L).block_size, 0⟩,
      dictGet?_set_self _ _ _, ?_⟩
    have hrangesplit : List.range N = (List.range N).dropLast ++ [b] := hsplit
    have hbnotdrop : b ∉ (List.range N).dropLast := by
      intro habs
      have hnd : ((List.range N).dropLast ++ [b]).Nodup := by
        rw [← hrangesplit]; exact List.nodup_range N
      exact (List.nodup_append.mp hnd).2.2 habs (by simp)
    refine ⟨hB, hsize, hlay, rfl, rfl, ?_, by simp, ?_, ?_, ?_⟩
    · show ([] ++ [b]).length = expectedLen B 0
      rw [expectedLen_zero]
      rfl
    · rw [hfree]
      exact List.Nodup.sublist (List.dropLast_sublist _) (List.nodup_range N)
    · intro x hx
      rw [List.nil_append, List.mem_singleton] at hx
      rw [hfree, hx]
      exact hbnotdrop
    · intro p hp
      exact absurd hp (Nat.not_lt_zero p)

theorem range'_map_getD_eq_drop {xs : List α} {s T : ℕ} (conv : α → α)
    (hT : xs.length = T) :
    (List.range' s (T - s)).map (fun pos => conv (xs.getD pos default))
      = (xs.drop s).map conv := by
  apply List.ext_getElem
  · simp [hT]
  · intro i h1 h2
    rw [List.getElem_map, List.getElem_map, List.getElem_range',
      List.getElem_drop]
    have hsi : s + i < xs.length := by
      rw [List.length_map, List.length_range'] at h1
      omega
    rw [show s + 1 * i = s + i by ring, List.getD_eq_getElem xs default hsi]

theorem callRows_map_entry {conv : α → α}
    {pr : List (List α × List α) × ℕ} {l L : ℕ} (hl : l < L)
    (hlen : pr.1.length = L)
    (hlay : ∀ kv ∈ pr.1, kv.1.length = hfSeqLen pr.1 ∧
      kv.2.length = hfSeqLen pr.1) :
    (callRows conv pr).map (fun row => (row.getD l (default, default)).1)
        = ((pr.1.getD l ([], [])).1.drop pr.2).map conv ∧
    (callRows conv pr).map (fun row => (row.getD l (default, default)).2)
        = ((pr.1.getD l ([], [])).2.drop pr.2).map conv := by
  have hlpkv : l < pr.1.length := by omega
  have hgetl : pr.1.getD l ([], []) = pr.1[l] :=
    List.getD_eq_getElem pr.1 ([], []) hlpkv
  have hrowl : ∀ pos, (rowOf conv pr.1 pos).getD l (default, default)
      = (conv ((pr.1[l]).1.getD pos default),
         conv ((pr.1[l]).2.getD pos default)) := by
    intro pos
    rw [rowOf]
    have hlmap : l < (pr.1.map fun kv =>
        (conv (kv.1.getD pos default), conv (kv.2.getD pos default))).length := by
      rw [List.length_map]; omega
    rw [List.getD_eq_getElem _ _ hlmap, List.getElem_map]
  have hKlen : (pr.1[l]).1.length = hfSeqLen pr.1 :=
    (hlay pr.1[l] (List.getElem_mem hlpkv)).1
  have hVlen : (pr.1[l]).2.length = hfSeqLen pr.1 :=
    (hlay pr.1[l] (List.getElem_mem hlpkv)).2
  constructor
  · rw [callRows, List.map_map, hgetl]
    calc (List.range' pr.2 (hfSeqLen pr.1 - pr.2)).map
          ((fun row => (row.getD l (default, default)).1) ∘ rowOf conv pr.1)
        = (List.range' pr.2 (hfSeqLen pr.1 - pr.2)).map
            (fun pos => conv ((pr.1[l]).1.getD pos default)) := by
          apply List.map_congr_left
          intro pos _
          show ((rowOf conv pr.1 pos).getD l (default, default)).1
            = conv ((pr.1[l]).1.getD pos default)
          rw [hrowl pos]
      _ = ((pr.1[l]).1.drop pr.2).map conv :=
          range'_map_getD_eq_drop conv hKlen
  · rw [callRows, List.map_map, hgetl]
    calc (List.range' pr.2 (hfSeqLen pr.1 - pr.2)).map
          ((fun row => (row.getD l (default, default)).2) ∘ rowOf conv pr.1)
        = (List.range' pr.2 (hfSeqLen pr.1 - pr.2)).map
            (fun pos => conv ((pr.1[l]).2.getD pos default)) := by
          apply List.map_congr_left
          intro pos _
          show ((rowOf conv pr.1 pos).getD l (default, default)).2
            = conv ((pr.1[l]).2.getD pos default)
          rw [hrowl pos]
      _ = ((pr.1[l]).2.drop pr.2).map conv :=
          range'_map_getD_eq_drop conv hVlen

/-- C3: cache round-trip. From a fresh cache with one lane, after any
sequence of `store_hf_cache` calls whose ingested slices total `M`
token positions, `get_cached_length` returns `M`, and (for `M ≥ 1`)
`get_hf_cache` returns per-layer K and V lists equal to the in-order
concatenation of the originally ingested slices, element-wise up to
the storage-dtype cast `conv`. -/
theorem cache_roundtrip {N B L : ℕ} (hB : 0 < B) (conv : α → α)
    (calls : List (List (List α × List α) × ℕ))
    (hcalls : ∀ pr ∈ calls, pr.1.length = L)
    (hlay : ∀ pr ∈ calls, ∀ kv ∈ pr.1,
      kv.1.length = hfSeqLen pr.1 ∧ kv.2.length = hfSeqLen pr.1)
    {sid : ℕ} {c1 c2 : PagedKVCache α}
    (hopen : (PagedKVCache.init α N B L).allocate_sequence = some (sid, c1))
    (hstore : storeCalls conv calls c1 sid = some c2) :
    c2.get_cached_length sid
        = (calls.map fun pr => hfSeqLen pr.1 - pr.2).sum ∧
    (0 < (calls.map fun pr => hfSeqLen pr.1 - pr.2).sum →
      c2.get_hf_cache sid = some ((List.range L).map fun l =>
        ((calls.map fun pr =>
            ((pr.1.getD l ([], [])).1.drop pr.2).map conv).flatten,
         (calls.map fun pr =>
            ((pr.1.getD l ([], [])).2.drop pr.2).map conv).flatten))) := by
  have hwf0 := allocate_sequence_wf hB hopen
  have hwf := storeCalls_wf calls hwf0 hcalls hstore
  rw [List.nil_append] at hwf
  have hlencontent : ((calls.map (callRows conv)).flatten).length
      = (calls.map fun pr => hfSeqLen pr.1 - pr.2).sum := by
    rw [List.length_flatten, List.map_map]
    congr 1
    apply List.map_congr_left
    intro pr _
    show (callRows conv pr).length = hfSeqLen pr.1 - pr.2
    rw [callRows, List.length_map, List.length_range']
  constructor
  · obtain ⟨hcB, t, ht, inv⟩ := hwf
    simp only [PagedKVCache.get_cached_length, ht]
    rw [inv.hnum, hlencontent]
  · intro hpos
    have hcpos : 0 < ((calls.map (callRows conv)).flatten).length := by
      omega
    rw [get_hf_cache_of_wf hwf hcpos]
    congr 1
    apply List.map_congr_left
    intro l hlmem
    rw [List.mem_range] at hlmem
    refine Prod.ext ?_ ?_
    · show ((calls.map (callRows conv)).flatten).map
          (fun row => (row.getD l (default, default)).1)
        = (calls.map fun pr =>
            ((pr.1.getD l ([], [])).1.drop pr.2).map conv).flatten
      rw [List.map_flatten, List.map_map]
      congr 1
      apply List.map_congr_left
      intro pr hpr
      exact (callRows_map_entry hlmem (hcalls pr hpr) (hlay pr hpr)).1
    · show ((calls.map (callRows conv)).flatten).map
          (fun row => (row.getD l (default, default)).2)
        = (calls.map fun pr =>
            ((pr.1.getD l ([], [])).2.drop pr.2).map conv).flatten
      rw [List.map_flatten, List.map_map]
      congr 1
      apply List.map_congr_left
      intro pr hpr
      exact (callRows_map_entry hlmem (hcalls pr hpr) (hlay pr hpr)).2

/-- Concrete store calls for the round-trip example: one layer; a
2-position slice (`start_pos = 0` of a 2-position cache) then a
1-position slice (`start_pos = 2` of a 3-position cache). -/
def rtCalls : List (List (List Int × List Int) × ℕ) :=
  [([([1, 2], [5, 6])], 0), ([([1, 2, 3], [5, 6, 7])], 2)]

/-- The example cache after `allocate_sequence` on a fresh 2-block,
block-size-2, 1-layer pool. -/
def rtC1 : PagedKVCache Int :=
  match (PagedKVCache.init Int 2 2 1).allocate_sequence with
  | some p => p.2
  | none => PagedKVCache.init Int 0 0 0

/-- The example cache after both stores. -/
def rtC2 : PagedKVCache Int :=
  match storeCalls id rtCalls rtC1 0 with
  | some c => c
  | none => rtC1

/-- Witness for `cache_roundtrip` at the concrete example: 3 ingested
positions spanning a block boundary; length 3 and emit
`([1,2,3], [5,6,7])` on layer 0. -/
theorem cache_roundtrip_witness :
    (0 < 2) ∧
    (∀ pr ∈ rtCalls, pr.1.length = 1) ∧
    (∀ pr ∈ rtCalls, ∀ kv ∈ pr.1,
      kv.1.length = hfSeqLen pr.1 ∧ kv.2.length = hfSeqLen pr.1) ∧
    ((PagedKVCache.init Int 2 2 1).allocate_sequence = some (0, rtC1)) ∧
    (storeCalls id rtCalls rtC1 0 = some rtC2) ∧
    (rtC2.get_cached_length 0
        = (rtCalls.map fun pr => hfSeqLen pr.1 - pr.2).sum ∧
      (0 < (rtCalls.map fun pr => hfSeqLen pr.1 - pr.2).sum →
        rtC2.get_hf_cache 0 = some ((List.range 1).map fun l =>
          ((rtCalls.map fun pr =>
              ((pr.1.getD l ([], [])).1.drop pr.2).map id).flatten,
           (rtCalls.map fun pr =>
              ((pr.1.getD l ([], [])).2.drop pr.2).map id).flatten)))) :=
  ⟨by decide, by decide, by decide, rfl, rfl,
   @cache_roundtrip Int _ 2 2 1 (by decide) id rtCalls (by decide) (by decide)
     0 rtC1 rtC2 rfl rfl⟩

end KVCache

end Helix
